import Mathlib

/-!
# Verification of the Gazebo maze generator (`make_maze.py`)

Shallow embedding of the maze-generation pipeline of `MazeGenerator`:

* wall state: two boolean matrices `horizontal_walls` (`(N+1) × N`) and
  `vertical_walls` (`N × (N+1)`), embedded as total functions `ℕ → ℕ → Bool`
  (entries outside the index ranges are irrelevant and never read);
* `_is_all_connected`: breadth-first search from cell `(0,0)`;
* `_dfs_carve` / `_generate_connected_maze_dfs`: randomized depth-first carver;
* `_count_inner_walls`, `_add_additional_walls`: the wall densifier;
* `_convert_to_3d_walls` / `_create_wall`: the geometry projector.

Randomness is modelled by explicit oracles: the carver's `random.shuffle` of
the four directions becomes a stream `rs : ℕ → List (ℤ × ℤ)` (one shuffled
list per carve call, assumed to be a permutation of the base direction list),
the random start cell becomes explicit parameters, and the densifier's
shuffle becomes a function on candidate lists assumed to produce a
permutation.  Real-valued geometry (Python floats) is modelled exactly over `ℚ`.
-/

namespace MazeGen

/-- Pointwise update of a curried boolean matrix: the embedding of the Python
assignment `m[i][j] = v` on a list-of-lists matrix. -/
def set2 (f : ℕ → ℕ → Bool) (i j : ℕ) (v : Bool) : ℕ → ℕ → Bool :=
  fun a b => if a = i ∧ b = j then v else f a b

@[simp] theorem set2_same (f : ℕ → ℕ → Bool) (i j : ℕ) (v : Bool) :
    set2 f i j v i j = v := by simp [set2]

theorem set2_other {i j a b : ℕ} (f : ℕ → ℕ → Bool) (v : Bool)
    (h : ¬(a = i ∧ b = j)) : set2 f i j v a b = f a b := by
  simp only [set2, if_neg h]

/-- The wall state of the maze: `hw r c` is `horizontal_walls[r][c]`
(the wall between cells `(r-1, c)` and `(r, c)`), `vw r c` is
`vertical_walls[r][c]` (the wall between cells `(r, c-1)` and `(r, c)`). -/
structure Walls where
  hw : ℕ → ℕ → Bool
  vw : ℕ → ℕ → Bool

/-- The initial, fully-walled state built by `MazeGenerator.__init__`. -/
def initialWalls : Walls := ⟨fun _ _ => true, fun _ _ => true⟩

/-- The `N × N` grid of cells, as `(row, col)` pairs. -/
def validCells (N : ℕ) : Finset (ℕ × ℕ) :=
  Finset.range N ×ˢ Finset.range N

theorem mem_validCells {N : ℕ} {p : ℕ × ℕ} :
    p ∈ validCells N ↔ p.1 < N ∧ p.2 < N := by
  simp [validCells]

theorem card_validCells (N : ℕ) : (validCells N).card = N * N := by
  simp [validCells]

/-! ## The connectivity checker `_is_all_connected` -/

/-- One guarded visit inside the BFS loop: the embedding of
`if cond and not visited[p]: visited[p] = True; queue.append(p); count += 1`.
The running `count` of the Python code always equals the cardinality of the
visited set, so we track only the set. -/
def bfsTry (visited : Finset (ℕ × ℕ)) (queue : List (ℕ × ℕ))
    (cond : Bool) (p : ℕ × ℕ) : Finset (ℕ × ℕ) × List (ℕ × ℕ) :=
  if cond = true ∧ p ∉ visited then (insert p visited, queue ++ [p])
  else (visited, queue)

theorem bfsTry_pos {visited : Finset (ℕ × ℕ)} {queue : List (ℕ × ℕ)}
    {cond : Bool} {p : ℕ × ℕ} (h1 : cond = true) (h2 : p ∉ visited) :
    bfsTry visited queue cond p = (insert p visited, queue ++ [p]) := by
  simp only [bfsTry, if_pos (And.intro h1 h2)]

theorem bfsTry_neg {visited : Finset (ℕ × ℕ)} {queue : List (ℕ × ℕ)}
    {cond : Bool} {p : ℕ × ℕ} (h : ¬(cond = true ∧ p ∉ visited)) :
    bfsTry visited queue cond p = (visited, queue) := by
  simp only [bfsTry, if_neg h]

theorem mem_bfsTry_fst {visited : Finset (ℕ × ℕ)} {queue : List (ℕ × ℕ)}
    {cond : Bool} {p x : ℕ × ℕ} :
    x ∈ (bfsTry visited queue cond p).1 ↔
      x ∈ visited ∨ (x = p ∧ cond = true ∧ p ∉ visited) := by
  by_cases h : cond = true ∧ p ∉ visited
  · rw [bfsTry_pos h.1 h.2]
    simp only [Finset.mem_insert]
    tauto
  · rw [bfsTry_neg h]
    tauto

theorem mem_bfsTry_snd {visited : Finset (ℕ × ℕ)} {queue : List (ℕ × ℕ)}
    {cond : Bool} {p x : ℕ × ℕ} :
    x ∈ (bfsTry visited queue cond p).2 ↔
      x ∈ queue ∨ (x = p ∧ cond = true ∧ p ∉ visited) := by
  by_cases h : cond = true ∧ p ∉ visited
  · rw [bfsTry_pos h.1 h.2]
    simp only [List.mem_append, List.mem_singleton]
    tauto
  · rw [bfsTry_neg h]
    tauto

theorem bfsTry_fst_subset (visited : Finset (ℕ × ℕ)) (queue : List (ℕ × ℕ))
    (cond : Bool) (p : ℕ × ℕ) :
    visited ⊆ (bfsTry visited queue cond p).1 := by
  intro x hx
  rw [mem_bfsTry_fst]
  exact Or.inl hx

/-- Measure for BFS termination: unvisited valid cells weigh 5, queue slots 1. -/
def bfsMeasure (N : ℕ) (visited : Finset (ℕ × ℕ)) (queue : List (ℕ × ℕ)) : ℕ :=
  5 * ((validCells N).filter (fun c => c ∉ visited)).card + queue.length

theorem bfsTry_measure {N : ℕ} (visited : Finset (ℕ × ℕ))
    (queue : List (ℕ × ℕ)) (cond : Bool) (p : ℕ × ℕ)
    (hp : cond = true → p ∈ validCells N) :
    bfsMeasure N (bfsTry visited queue cond p).1 (bfsTry visited queue cond p).2 ≤
      bfsMeasure N visited queue := by
  by_cases h : cond = true ∧ p ∉ visited
  · rw [bfsTry_pos h.1 h.2]
    have hmem : p ∈ (validCells N).filter (fun c => c ∉ visited) := by
      simp only [Finset.mem_filter]
      exact ⟨hp h.1, h.2⟩
    have hsub : (validCells N).filter (fun c => c ∉ insert p visited) ⊆
        ((validCells N).filter (fun c => c ∉ visited)).erase p := by
      intro x hx
      simp only [Finset.mem_filter, Finset.mem_insert, not_or] at hx
      simp only [Finset.mem_erase, Finset.mem_filter]
      exact ⟨hx.2.1, hx.1, hx.2.2⟩
    have hcard : ((validCells N).filter (fun c => c ∉ insert p visited)).card + 1 ≤
        ((validCells N).filter (fun c => c ∉ visited)).card := by
      have h1 := Finset.card_le_card hsub
      have h2 := Finset.card_erase_of_mem hmem
      have h3 : 1 ≤ ((validCells N).filter (fun c => c ∉ visited)).card :=
        Finset.card_pos.mpr ⟨p, hmem⟩
      omega
    unfold bfsMeasure
    simp only [List.length_append, List.length_singleton]
    omega
  · rw [bfsTry_neg h]

/-- The body of one iteration of the BFS `while queue:` loop, for popped cell
`(r, c)` and remaining queue `rest`: try the four neighbours in the code's
order (up, down, left, right). -/
def bfsStep (N : ℕ) (hw vw : ℕ → ℕ → Bool) (r c : ℕ)
    (visited : Finset (ℕ × ℕ)) (rest : List (ℕ × ℕ)) :
    Finset (ℕ × ℕ) × List (ℕ × ℕ) :=
  -- up: `row > 0 and not horizontal_walls[row][col]`
  let s1 := bfsTry visited rest (decide (0 < r) && !hw r c) (r - 1, c)
  -- down: `row < grid_size - 1 and not horizontal_walls[row + 1][col]`
  let s2 := bfsTry s1.1 s1.2 (decide (r + 1 < N) && !hw (r + 1) c) (r + 1, c)
  -- left: `col > 0 and not vertical_walls[row][col]`
  let s3 := bfsTry s2.1 s2.2 (decide (0 < c) && !vw r c) (r, c - 1)
  -- right: `col < grid_size - 1 and not vertical_walls[row][col + 1]`
  bfsTry s3.1 s3.2 (decide (c + 1 < N) && !vw r (c + 1)) (r, c + 1)

theorem mem_bfsStep_snd {N : ℕ} {hw vw : ℕ → ℕ → Bool} {r c : ℕ}
    {visited : Finset (ℕ × ℕ)} {rest : List (ℕ × ℕ)} {x : ℕ × ℕ}
    (hx : x ∈ (bfsStep N hw vw r c visited rest).2) :
    x ∈ rest ∨ (x = (r - 1, c) ∧ 0 < r) ∨ (x = (r + 1, c) ∧ r + 1 < N) ∨
      (x = (r, c - 1) ∧ 0 < c) ∨ (x = (r, c + 1) ∧ c + 1 < N) := by
  unfold bfsStep at hx
  rw [mem_bfsTry_snd] at hx
  rcases hx with hx | hx
  · rw [mem_bfsTry_snd] at hx
    rcases hx with hx | hx
    · rw [mem_bfsTry_snd] at hx
      rcases hx with hx | hx
      · rw [mem_bfsTry_snd] at hx
        rcases hx with hx | hx
        · exact Or.inl hx
        · refine Or.inr (Or.inl ⟨hx.1, ?_⟩)
          have := hx.2.1
          simp only [Bool.and_eq_true, decide_eq_true_eq] at this
          exact this.1
      · refine Or.inr (Or.inr (Or.inl ⟨hx.1, ?_⟩))
        have := hx.2.1
        simp only [Bool.and_eq_true, decide_eq_true_eq] at this
        exact this.1
    · refine Or.inr (Or.inr (Or.inr (Or.inl ⟨hx.1, ?_⟩)))
      have := hx.2.1
      simp only [Bool.and_eq_true, decide_eq_true_eq] at this
      exact this.1
  · refine Or.inr (Or.inr (Or.inr (Or.inr ⟨hx.1, ?_⟩)))
    have := hx.2.1
    simp only [Bool.and_eq_true, decide_eq_true_eq] at this
    exact this.1

theorem bfsStep_measure {N : ℕ} (hw vw : ℕ → ℕ → Bool) {r c : ℕ}
    (visited : Finset (ℕ × ℕ)) (rest : List (ℕ × ℕ))
    (hr : r < N) (hc : c < N) :
    bfsMeasure N (bfsStep N hw vw r c visited rest).1
        (bfsStep N hw vw r c visited rest).2 ≤
      bfsMeasure N visited rest := by
  have m1 := bfsTry_measure (N := N) visited rest
    (decide (0 < r) && !hw r c) (r - 1, c) (by
      intro hcond
      simp only [Bool.and_eq_true, decide_eq_true_eq] at hcond
      rw [mem_validCells]
      exact ⟨by omega, hc⟩)
  have m2 := bfsTry_measure (N := N)
    (bfsTry visited rest (decide (0 < r) && !hw r c) (r - 1, c)).1
    (bfsTry visited rest (decide (0 < r) && !hw r c) (r - 1, c)).2
    (decide (r + 1 < N) && !hw (r + 1) c) (r + 1, c) (by
      intro hcond
      simp only [Bool.and_eq_true, decide_eq_true_eq] at hcond
      rw [mem_validCells]
      exact ⟨hcond.1, hc⟩)
  have m3 := bfsTry_measure (N := N)
    (bfsTry (bfsTry visited rest (decide (0 < r) && !hw r c) (r - 1, c)).1
      (bfsTry visited rest (decide (0 < r) && !hw r c) (r - 1, c)).2
      (decide (r + 1 < N) && !hw (r + 1) c) (r + 1, c)).1
    (bfsTry (bfsTry visited rest (decide (0 < r) && !hw r c) (r - 1, c)).1
      (bfsTry visited rest (decide (0 < r) && !hw r c) (r - 1, c)).2
      (decide (r + 1 < N) && !hw (r + 1) c) (r + 1, c)).2
    (decide (0 < c) && !vw r c) (r, c - 1) (by
      intro hcond
      simp only [Bool.and_eq_true, decide_eq_true_eq] at hcond
      rw [mem_validCells]
      exact ⟨hr, by omega⟩)
  have m4 := bfsTry_measure (N := N)
    (bfsTry (bfsTry (bfsTry visited rest (decide (0 < r) && !hw r c) (r - 1, c)).1
      (bfsTry visited rest (decide (0 < r) && !hw r c) (r - 1, c)).2
      (decide (r + 1 < N) && !hw (r + 1) c) (r + 1, c)).1
      (bfsTry (bfsTry visited rest (decide (0 < r) && !hw r c) (r - 1, c)).1
        (bfsTry visited rest (decide (0 < r) && !hw r c) (r - 1, c)).2
        (decide (r + 1 < N) && !hw (r + 1) c) (r + 1, c)).2
      (decide (0 < c) && !vw r c) (r, c - 1)).1
    (bfsTry (bfsTry (bfsTry visited rest (decide (0 < r) && !hw r c) (r - 1, c)).1
      (bfsTry visited rest (decide (0 < r) && !hw r c) (r - 1, c)).2
      (decide (r + 1 < N) && !hw (r + 1) c) (r + 1, c)).1
      (bfsTry (bfsTry visited rest (decide (0 < r) && !hw r c) (r - 1, c)).1
        (bfsTry visited rest (decide (0 < r) && !hw r c) (r - 1, c)).2
        (decide (r + 1 < N) && !hw (r + 1) c) (r + 1, c)).2
      (decide (0 < c) && !vw r c) (r, c - 1)).2
    (decide (c + 1 < N) && !vw r (c + 1)) (r, c + 1) (by
      intro hcond
      simp only [Bool.and_eq_true, decide_eq_true_eq] at hcond
      rw [mem_validCells]
      exact ⟨hr, hcond.1⟩)
  simp only [bfsStep]
  omega

/-- The BFS loop of `_is_all_connected`: pop the head of the queue, process
the four neighbours, recurse.  The argument `hq` keeps every queued cell
inside the grid, which the Python code guarantees by construction (it is
needed for termination). -/
def bfsLoop (N : ℕ) (hw vw : ℕ → ℕ → Bool) :
    (visited : Finset (ℕ × ℕ)) → (queue : List (ℕ × ℕ)) →
    (hq : ∀ p ∈ queue, p.1 < N ∧ p.2 < N) → Finset (ℕ × ℕ)
  | visited, [], _ => visited
  | visited, (r, c) :: rest, hq =>
    bfsLoop N hw vw (bfsStep N hw vw r c visited rest).1
      (bfsStep N hw vw r c visited rest).2 (by
        intro p hp
        have hrc := hq (r, c) (List.mem_cons_self _ _)
        rcases mem_bfsStep_snd hp with h | ⟨rfl, h⟩ | ⟨rfl, h⟩ | ⟨rfl, h⟩ | ⟨rfl, h⟩
        · exact hq p (List.mem_cons_of_mem _ h)
        · exact ⟨by omega, hrc.2⟩
        · exact ⟨h, hrc.2⟩
        · exact ⟨hrc.1, by omega⟩
        · exact ⟨hrc.1, h⟩)
  termination_by visited queue _ => bfsMeasure N visited queue
  decreasing_by
    have hrc : r < N ∧ c < N := hq (r, c) (List.mem_cons_self _ _)
    have hstep := bfsStep_measure (N := N) hw vw visited rest hrc.1 hrc.2
    have hlen : bfsMeasure N visited rest < bfsMeasure N visited ((r, c) :: rest) := by
      unfold bfsMeasure
      simp only [List.length_cons]
      omega
    omega

/-! ### The open-passage adjacency relation

`adjOpen N hw vw a b` is the graph of the specification: two grid-adjacent
cells are related exactly when the wall entry separating them is absent
(`false`).  This is the relation the Connectivity Checker is claimed to
explore. -/

/-- Two cells are adjacent through an open (absent) wall. -/
def adjOpen (N : ℕ) (hw vw : ℕ → ℕ → Bool) (a b : ℕ × ℕ) : Prop :=
  a.1 < N ∧ a.2 < N ∧ b.1 < N ∧ b.2 < N ∧
    ((b = (a.1 + 1, a.2) ∧ hw (a.1 + 1) a.2 = false) ∨
     (a = (b.1 + 1, b.2) ∧ hw a.1 a.2 = false) ∨
     (b = (a.1, a.2 + 1) ∧ vw a.1 (a.2 + 1) = false) ∨
     (a = (b.1, b.2 + 1) ∧ vw a.1 a.2 = false))

theorem adjOpen_symm {N : ℕ} {hw vw : ℕ → ℕ → Bool} {a b : ℕ × ℕ}
    (h : adjOpen N hw vw a b) : adjOpen N hw vw b a := by
  obtain ⟨h1, h2, h3, h4, hcase⟩ := h
  refine ⟨h3, h4, h1, h2, ?_⟩
  rcases hcase with ⟨heq, hwall⟩ | ⟨heq, hwall⟩ | ⟨heq, hwall⟩ | ⟨heq, hwall⟩
  · exact Or.inr (Or.inl ⟨heq, by rw [heq]; exact hwall⟩)
  · exact Or.inl ⟨heq, by subst heq; exact hwall⟩
  · exact Or.inr (Or.inr (Or.inr ⟨heq, by rw [heq]; exact hwall⟩))
  · exact Or.inr (Or.inr (Or.inl ⟨heq, by subst heq; exact hwall⟩))

theorem adjOpen_valid {N : ℕ} {hw vw : ℕ → ℕ → Bool} {a b : ℕ × ℕ}
    (h : adjOpen N hw vw a b) :
    (a.1 < N ∧ a.2 < N) ∧ (b.1 < N ∧ b.2 < N) :=
  ⟨⟨h.1, h.2.1⟩, ⟨h.2.2.1, h.2.2.2.1⟩⟩

/-- The neighbours of a valid cell `(r, c)` under `adjOpen` are exactly the
four cells the BFS loop tries, under exactly the conditions it tests. -/
theorem adjOpen_step {N : ℕ} {hw vw : ℕ → ℕ → Bool} {r c : ℕ} {x : ℕ × ℕ}
    (hr : r < N) (hc : c < N) :
    adjOpen N hw vw (r, c) x ↔
      ((x = (r - 1, c) ∧ 0 < r ∧ hw r c = false) ∨
       (x = (r + 1, c) ∧ r + 1 < N ∧ hw (r + 1) c = false) ∨
       (x = (r, c - 1) ∧ 0 < c ∧ vw r c = false) ∨
       (x = (r, c + 1) ∧ c + 1 < N ∧ vw r (c + 1) = false)) := by
  constructor
  · rintro ⟨-, -, hx1, hx2, hcase⟩
    rcases hcase with ⟨heq, hwall⟩ | ⟨heq, hwall⟩ | ⟨heq, hwall⟩ | ⟨heq, hwall⟩
    · exact Or.inr (Or.inl ⟨heq, by rw [heq] at hx1; exact hx1, hwall⟩)
    · have h1 : r = x.1 + 1 := congrArg Prod.fst heq
      have h2 : c = x.2 := congrArg Prod.snd heq
      refine Or.inl ⟨?_, by omega, hwall⟩
      have : x = (x.1, x.2) := rfl
      rw [this]
      refine Prod.ext ?_ ?_ <;> simp <;> omega
    · exact Or.inr (Or.inr (Or.inr ⟨heq, by rw [heq] at hx2; exact hx2, hwall⟩))
    · have h1 : r = x.1 := congrArg Prod.fst heq
      have h2 : c = x.2 + 1 := congrArg Prod.snd heq
      refine Or.inr (Or.inr (Or.inl ⟨?_, by omega, hwall⟩))
      have : x = (x.1, x.2) := rfl
      rw [this]
      refine Prod.ext ?_ ?_ <;> simp <;> omega
  · rintro (⟨rfl, hpos, hwall⟩ | ⟨rfl, hlt, hwall⟩ | ⟨rfl, hpos, hwall⟩ | ⟨rfl, hlt, hwall⟩)
    · refine ⟨hr, hc, by simp; omega, hc, Or.inr (Or.inl ⟨?_, ?_⟩)⟩
      · refine Prod.ext ?_ ?_ <;> simp <;> omega
      · exact hwall
    · exact ⟨hr, hc, hlt, hc, Or.inl ⟨rfl, hwall⟩⟩
    · refine ⟨hr, hc, hr, by simp; omega, Or.inr (Or.inr (Or.inr ⟨?_, ?_⟩))⟩
      · refine Prod.ext ?_ ?_ <;> simp <;> omega
      · exact hwall
    · exact ⟨hr, hc, hr, hlt, Or.inr (Or.inr (Or.inl ⟨rfl, hwall⟩))⟩

/-! ### Characterization of one BFS step -/

theorem bfsTry_snd_superset {visited : Finset (ℕ × ℕ)} {queue : List (ℕ × ℕ)}
    {cond : Bool} {p x : ℕ × ℕ} (hx : x ∈ queue) :
    x ∈ (bfsTry visited queue cond p).2 :=
  mem_bfsTry_snd.mpr (Or.inl hx)

theorem bfsTry_fst_mem_or {visited : Finset (ℕ × ℕ)} {queue : List (ℕ × ℕ)}
    {cond : Bool} {p x : ℕ × ℕ} (hx : x ∈ (bfsTry visited queue cond p).1) :
    x ∈ visited ∨ x ∈ (bfsTry visited queue cond p).2 := by
  rcases mem_bfsTry_fst.mp hx with h | h
  · exact Or.inl h
  · exact Or.inr (mem_bfsTry_snd.mpr (Or.inr h))

theorem bfsTry_snd_mem_fst {visited : Finset (ℕ × ℕ)} {queue : List (ℕ × ℕ)}
    {cond : Bool} {p : ℕ × ℕ} (hsub : ∀ x ∈ queue, x ∈ visited) :
    ∀ x ∈ (bfsTry visited queue cond p).2, x ∈ (bfsTry visited queue cond p).1 := by
  intro x hx
  rcases mem_bfsTry_snd.mp hx with h | h
  · exact mem_bfsTry_fst.mpr (Or.inl (hsub x h))
  · exact mem_bfsTry_fst.mpr (Or.inr h)

/-- A cell visited after one BFS step was visited before, or is adjacent
through an open wall to the popped cell. -/
theorem bfsStep_fst_cases {N : ℕ} {hw vw : ℕ → ℕ → Bool} {r c : ℕ}
    {visited : Finset (ℕ × ℕ)} {rest : List (ℕ × ℕ)} {x : ℕ × ℕ}
    (hr : r < N) (hc : c < N)
    (hx : x ∈ (bfsStep N hw vw r c visited rest).1) :
    x ∈ visited ∨ adjOpen N hw vw (r, c) x := by
  simp only [bfsStep] at hx
  rw [adjOpen_step hr hc]
  rcases mem_bfsTry_fst.mp hx with hx | ⟨rfl, hcond, -⟩
  · rcases mem_bfsTry_fst.mp hx with hx | ⟨rfl, hcond, -⟩
    · rcases mem_bfsTry_fst.mp hx with hx | ⟨rfl, hcond, -⟩
      · rcases mem_bfsTry_fst.mp hx with hx | ⟨rfl, hcond, -⟩
        · exact Or.inl hx
        · simp only [Bool.and_eq_true, decide_eq_true_eq, Bool.not_eq_true'] at hcond
          exact Or.inr (Or.inl ⟨rfl, hcond.1, hcond.2⟩)
      · simp only [Bool.and_eq_true, decide_eq_true_eq, Bool.not_eq_true'] at hcond
        exact Or.inr (Or.inr (Or.inl ⟨rfl, hcond.1, hcond.2⟩))
    · simp only [Bool.and_eq_true, decide_eq_true_eq, Bool.not_eq_true'] at hcond
      exact Or.inr (Or.inr (Or.inr (Or.inl ⟨rfl, hcond.1, hcond.2⟩)))
  · simp only [Bool.and_eq_true, decide_eq_true_eq, Bool.not_eq_true'] at hcond
    exact Or.inr (Or.inr (Or.inr (Or.inr ⟨rfl, hcond.1, hcond.2⟩)))

/-- Every cell adjacent through an open wall to the popped cell is visited
after the BFS step processing that cell. -/
theorem bfsStep_fst_of_adj {N : ℕ} {hw vw : ℕ → ℕ → Bool} {r c : ℕ}
    {visited : Finset (ℕ × ℕ)} {rest : List (ℕ × ℕ)} {x : ℕ × ℕ}
    (hr : r < N) (hc : c < N) (hadj : adjOpen N hw vw (r, c) x) :
    x ∈ (bfsStep N hw vw r c visited rest).1 := by
  rw [adjOpen_step hr hc] at hadj
  simp only [bfsStep]
  rcases hadj with ⟨rfl, hpos, hwall⟩ | ⟨rfl, hlt, hwall⟩ | ⟨rfl, hpos, hwall⟩ |
    ⟨rfl, hlt, hwall⟩
  · -- up neighbour: handled by the first `bfsTry`
    refine bfsTry_fst_subset _ _ _ _ (bfsTry_fst_subset _ _ _ _
      (bfsTry_fst_subset _ _ _ _ ?_))
    by_cases hv : (r - 1, c) ∈ visited
    · exact mem_bfsTry_fst.mpr (Or.inl hv)
    · refine mem_bfsTry_fst.mpr (Or.inr ⟨rfl, ?_, hv⟩)
      simp [hpos, hwall]
  · -- down neighbour: handled by the second `bfsTry`
    refine bfsTry_fst_subset _ _ _ _ (bfsTry_fst_subset _ _ _ _ ?_)
    by_cases hv : (r + 1, c) ∈ (bfsTry visited rest (decide (0 < r) && !hw r c) (r - 1, c)).1
    · exact mem_bfsTry_fst.mpr (Or.inl hv)
    · refine mem_bfsTry_fst.mpr (Or.inr ⟨rfl, ?_, hv⟩)
      simp [hlt, hwall]
  · -- left neighbour: handled by the third `bfsTry`
    refine bfsTry_fst_subset _ _ _ _ ?_
    by_cases hv : (r, c - 1) ∈ (bfsTry
        (bfsTry visited rest (decide (0 < r) && !hw r c) (r - 1, c)).1
        (bfsTry visited rest (decide (0 < r) && !hw r c) (r - 1, c)).2
        (decide (r + 1 < N) && !hw (r + 1) c) (r + 1, c)).1
    · exact mem_bfsTry_fst.mpr (Or.inl hv)
    · refine mem_bfsTry_fst.mpr (Or.inr ⟨rfl, ?_, hv⟩)
      simp [hpos, hwall]
  · -- right neighbour: handled by the fourth `bfsTry`
    by_cases hv : (r, c + 1) ∈ (bfsTry (bfsTry
        (bfsTry visited rest (decide (0 < r) && !hw r c) (r - 1, c)).1
        (bfsTry visited rest (decide (0 < r) && !hw r c) (r - 1, c)).2
        (decide (r + 1 < N) && !hw (r + 1) c) (r + 1, c)).1
        (bfsTry (bfsTry visited rest (decide (0 < r) && !hw r c) (r - 1, c)).1
          (bfsTry visited rest (decide (0 < r) && !hw r c) (r - 1, c)).2
          (decide (r + 1 < N) && !hw (r + 1) c) (r + 1, c)).2
        (decide (0 < c) && !vw r c) (r, c - 1)).1
    · exact mem_bfsTry_fst.mpr (Or.inl hv)
    · refine mem_bfsTry_fst.mpr (Or.inr ⟨rfl, ?_, hv⟩)
      simp [hlt, hwall]

/-- The new visited set after one BFS step contains the old one. -/
theorem bfsStep_fst_superset {N : ℕ} {hw vw : ℕ → ℕ → Bool} {r c : ℕ}
    {visited : Finset (ℕ × ℕ)} {rest : List (ℕ × ℕ)} :
    ∀ x ∈ visited, x ∈ (bfsStep N hw vw r c visited rest).1 := by
  intro x hx
  simp only [bfsStep]
  exact bfsTry_fst_subset _ _ _ _ (bfsTry_fst_subset _ _ _ _
    (bfsTry_fst_subset _ _ _ _ (bfsTry_fst_subset _ _ _ _ hx)))

/-- The remaining queue survives one BFS step. -/
theorem bfsStep_snd_superset {N : ℕ} {hw vw : ℕ → ℕ → Bool} {r c : ℕ}
    {visited : Finset (ℕ × ℕ)} {rest : List (ℕ × ℕ)} :
    ∀ x ∈ rest, x ∈ (bfsStep N hw vw r c visited rest).2 := by
  intro x hx
  simp only [bfsStep]
  exact bfsTry_snd_superset (bfsTry_snd_superset
    (bfsTry_snd_superset (bfsTry_snd_superset hx)))

/-- Every queued cell is visited, after one BFS step (given it held before). -/
theorem bfsStep_snd_mem_fst {N : ℕ} {hw vw : ℕ → ℕ → Bool} {r c : ℕ}
    {visited : Finset (ℕ × ℕ)} {rest : List (ℕ × ℕ)}
    (hsub : ∀ x ∈ rest, x ∈ visited) :
    ∀ x ∈ (bfsStep N hw vw r c visited rest).2,
      x ∈ (bfsStep N hw vw r c visited rest).1 := by
  simp only [bfsStep]
  exact bfsTry_snd_mem_fst (bfsTry_snd_mem_fst (bfsTry_snd_mem_fst
    (bfsTry_snd_mem_fst hsub)))

/-- Cells visited during one BFS step are queued by it. -/
theorem bfsStep_fst_mem_or {N : ℕ} {hw vw : ℕ → ℕ → Bool} {r c : ℕ}
    {visited : Finset (ℕ × ℕ)} {rest : List (ℕ × ℕ)} {x : ℕ × ℕ}
    (hx : x ∈ (bfsStep N hw vw r c visited rest).1) :
    x ∈ visited ∨ x ∈ (bfsStep N hw vw r c visited rest).2 := by
  simp only [bfsStep] at hx ⊢
  rcases bfsTry_fst_mem_or hx with h | h
  · rcases bfsTry_fst_mem_or h with h | h
    · rcases bfsTry_fst_mem_or h with h | h
      · rcases bfsTry_fst_mem_or h with h | h
        · exact Or.inl h
        · exact Or.inr (bfsTry_snd_superset (bfsTry_snd_superset
            (bfsTry_snd_superset h)))
      · exact Or.inr (bfsTry_snd_superset (bfsTry_snd_superset h))
    · exact Or.inr (bfsTry_snd_superset h)
  · exact Or.inr h

/-- The embedding of `MazeGenerator._is_all_connected`: BFS from `(0, 0)`,
return whether the number of visited cells equals `N²`.  For `N = 0` the
Python code raises `IndexError` (`visited[0][0]` on an empty matrix); we
return `false` there, and every theorem about the checker assumes `1 ≤ N`. -/
def isAllConnected (N : ℕ) (hw vw : ℕ → ℕ → Bool) : Bool :=
  if h : 0 < N then
    (bfsLoop N hw vw {(0, 0)} [(0, 0)]
      (by intro p hp; simp only [List.mem_singleton] at hp; subst hp; exact ⟨h, h⟩)).card
      == N * N
  else false

/-! ### Correctness of the BFS loop -/

/-- Invariant-based specification of the BFS loop: starting from a visited
set whose cells are reachable from `s`, whose non-queued cells are saturated,
and whose queue is contained in it, the loop produces a superset of the
visited set, all of whose cells are reachable from `s`, and which is closed
under open-wall adjacency. -/
theorem bfsLoop_spec (N : ℕ) (hw vw : ℕ → ℕ → Bool) (s : ℕ × ℕ)
    (visited : Finset (ℕ × ℕ)) (queue : List (ℕ × ℕ))
    (hq : ∀ p ∈ queue, p.1 < N ∧ p.2 < N)
    (hqv : ∀ p ∈ queue, p ∈ visited)
    (hreach : ∀ p ∈ visited, Relation.ReflTransGen (adjOpen N hw vw) s p)
    (hclosed : ∀ p ∈ visited, p ∉ queue →
      ∀ q, adjOpen N hw vw p q → q ∈ visited) :
    (∀ p ∈ visited, p ∈ bfsLoop N hw vw visited queue hq) ∧
    (∀ p ∈ bfsLoop N hw vw visited queue hq,
      Relation.ReflTransGen (adjOpen N hw vw) s p) ∧
    (∀ p ∈ bfsLoop N hw vw visited queue hq,
      ∀ q, adjOpen N hw vw p q → q ∈ bfsLoop N hw vw visited queue hq) := by
  induction visited, queue, hq using bfsLoop.induct N hw vw with
  | case1 visited hq =>
    rw [bfsLoop]
    refine ⟨fun p hp => hp, hreach, ?_⟩
    intro p hp q hadj
    exact hclosed p hp (List.not_mem_nil p) q hadj
  | case2 visited r c rest hq hq' ih =>
    have hrc : r < N ∧ c < N := hq (r, c) (List.mem_cons_self _ _)
    -- re-establish the four invariants for the post-step state
    have hqv' : ∀ p ∈ (bfsStep N hw vw r c visited rest).2,
        p ∈ (bfsStep N hw vw r c visited rest).1 := by
      refine bfsStep_snd_mem_fst ?_
      intro x hx
      exact hqv x (List.mem_cons_of_mem _ hx)
    have hreach' : ∀ p ∈ (bfsStep N hw vw r c visited rest).1,
        Relation.ReflTransGen (adjOpen N hw vw) s p := by
      intro p hp
      rcases bfsStep_fst_cases hrc.1 hrc.2 hp with hp | hadj
      · exact hreach p hp
      · exact Relation.ReflTransGen.tail
          (hreach (r, c) (hqv (r, c) (List.mem_cons_self _ _))) hadj
    have hclosed' : ∀ p ∈ (bfsStep N hw vw r c visited rest).1,
        p ∉ (bfsStep N hw vw r c visited rest).2 →
        ∀ q, adjOpen N hw vw p q → q ∈ (bfsStep N hw vw r c visited rest).1 := by
      intro p hp hpq q hadj
      rcases bfsStep_fst_mem_or hp with hpv | hpsnd
      · -- previously visited cell
        by_cases hpold : p ∈ (r, c) :: rest
        · rcases List.mem_cons.mp hpold with rfl | hprest
          · -- the popped cell: all its open neighbours were just processed
            exact bfsStep_fst_of_adj hrc.1 hrc.2 hadj
          · exact absurd (bfsStep_snd_superset p hprest) hpq
        · exact bfsStep_fst_superset q
            (hclosed p hpv hpold q hadj)
      · exact absurd hpsnd hpq
    obtain ⟨h1, h2, h3⟩ := ih hqv' hreach' hclosed'
    rw [bfsLoop]
    refine ⟨?_, h2, h3⟩
    intro p hp
    exact h1 p (bfsStep_fst_superset p hp)

/-- The result of the full BFS from `(0,0)` is exactly the set of cells
reachable from `(0,0)` through open walls. -/
theorem bfsLoop_eq_reach (N : ℕ) (hw vw : ℕ → ℕ → Bool) (h : 0 < N)
    (hq : ∀ p ∈ [((0 : ℕ), (0 : ℕ))], p.1 < N ∧ p.2 < N) (x : ℕ × ℕ) :
    x ∈ bfsLoop N hw vw {(0, 0)} [(0, 0)] hq ↔
      Relation.ReflTransGen (adjOpen N hw vw) (0, 0) x := by
  obtain ⟨h1, h2, h3⟩ := bfsLoop_spec N hw vw (0, 0) {(0, 0)} [(0, 0)] hq
    (by intro p hp; simp only [List.mem_singleton] at hp; subst hp; simp)
    (by
      intro p hp
      simp only [Finset.mem_singleton] at hp
      subst hp
      exact Relation.ReflTransGen.refl)
    (by
      intro p hp hpq
      simp only [Finset.mem_singleton] at hp
      simp only [List.mem_singleton] at hpq
      exact absurd hp hpq)
  constructor
  · exact h2 x
  · intro hx
    induction hx with
    | refl => exact h1 (0, 0) (Finset.mem_singleton_self _)
    | tail hab hbc ih => exact h3 _ ih _ hbc

/-- All cells reachable from `(0,0)` are valid, so the reachable set is a
subset of the grid. -/
theorem reach_subset_valid {N : ℕ} {hw vw : ℕ → ℕ → Bool} (h : 0 < N)
    {x : ℕ × ℕ} (hx : Relation.ReflTransGen (adjOpen N hw vw) (0, 0) x) :
    x.1 < N ∧ x.2 < N := by
  induction hx with
  | refl => exact ⟨h, h⟩
  | tail hab hbc ih => exact (adjOpen_valid hbc).2

/-- The checker `_is_all_connected` returns `true` exactly when the number of distinct
cells reachable from `(0, 0)` through open walls equals `N²`. -/
theorem isAllConnected_iff_ncard (N : ℕ) (hw vw : ℕ → ℕ → Bool) (h : 0 < N) :
    isAllConnected N hw vw = true ↔
      Set.ncard {x : ℕ × ℕ |
        Relation.ReflTransGen (adjOpen N hw vw) (0, 0) x} = N * N := by
  rw [isAllConnected, dif_pos h, beq_iff_eq]
  have hset : {x : ℕ × ℕ | Relation.ReflTransGen (adjOpen N hw vw) (0, 0) x} =
      ↑(bfsLoop N hw vw {(0, 0)} [(0, 0)]
        (by intro p hp; simp only [List.mem_singleton] at hp; subst hp;
            exact ⟨h, h⟩)) := by
    ext x
    simp only [Set.mem_setOf_eq, Finset.coe_sort_coe, Finset.mem_coe]
    exact (bfsLoop_eq_reach N hw vw h _ x).symm
  rw [hset, Set.ncard_coe_Finset]

/-- If `_is_all_connected` returns `true`, every valid cell is reachable
from `(0,0)` through open walls. -/
theorem isAllConnected_reaches (N : ℕ) (hw vw : ℕ → ℕ → Bool) (h : 0 < N)
    (hconn : isAllConnected N hw vw = true) :
    ∀ x : ℕ × ℕ, x.1 < N → x.2 < N →
      Relation.ReflTransGen (adjOpen N hw vw) (0, 0) x := by
  rw [isAllConnected, dif_pos h, beq_iff_eq] at hconn
  set R := bfsLoop N hw vw {(0, 0)} [(0, 0)]
      (by intro p hp; simp only [List.mem_singleton] at hp; subst hp;
          exact ⟨h, h⟩) with hR
  have hsub : R ⊆ validCells N := by
    intro x hx
    rw [mem_validCells]
    exact reach_subset_valid h ((bfsLoop_eq_reach N hw vw h _ x).mp hx)
  have heq : R = validCells N := Finset.eq_of_subset_of_card_le hsub (by
    rw [card_validCells]
    exact le_of_eq hconn.symm)
  intro x hx1 hx2
  have hxR : x ∈ R := by
    rw [heq, mem_validCells]
    exact ⟨hx1, hx2⟩
  rw [hR] at hxR
  exact (bfsLoop_eq_reach N hw vw h _ x).mp hxR

/-- Conversely, if every valid cell is reachable from `(0,0)`, the checker
returns `true`. -/
theorem isAllConnected_of_reaches (N : ℕ) (hw vw : ℕ → ℕ → Bool) (h : 0 < N)
    (hall : ∀ x : ℕ × ℕ, x.1 < N → x.2 < N →
      Relation.ReflTransGen (adjOpen N hw vw) (0, 0) x) :
    isAllConnected N hw vw = true := by
  rw [isAllConnected, dif_pos h, beq_iff_eq]
  set R := bfsLoop N hw vw {(0, 0)} [(0, 0)]
      (by intro p hp; simp only [List.mem_singleton] at hp; subst hp;
          exact ⟨h, h⟩) with hR
  have heq : R = validCells N := by
    ext x
    rw [mem_validCells, bfsLoop_eq_reach N hw vw h _ x]
    constructor
    · exact reach_subset_valid h
    · intro hx
      exact hall x hx.1 hx.2
  rw [heq, card_validCells]

/-! ## The depth-first carver `_dfs_carve`

The carver's state: the two wall matrices, the `visited` matrix (as the set
of `true` entries) and the number `k` of `_dfs_carve` invocations made so
far — each invocation consumes exactly one `random.shuffle` of the direction
list, so `k` also indexes the shuffle stream `rs`.

The Python code marks a cell visited at the top of `_dfs_carve`; here the
marking happens at the call site (both for the start cell and for each
recursive call), which produces the identical execution trace and lets the
visited set grow before each recursive call (needed for termination). -/

/-- The direction list `[(0, 1), (1, 0), (0, -1), (-1, 0)]` (right, down,
left, up) that `_dfs_carve` shuffles at each invocation. -/
def baseDirections : List (ℤ × ℤ) := [(0, 1), (1, 0), (0, -1), (-1, 0)]

/-- A shuffle stream is admissible when every entry is a permutation of the
base direction list — exactly the guarantee of `random.shuffle`. -/
def IsShuffleSeq (rs : ℕ → List (ℤ × ℤ)) : Prop :=
  ∀ k, (rs k).Perm baseDirections

structure CarveSt where
  hw : ℕ → ℕ → Bool
  vw : ℕ → ℕ → Bool
  visited : Finset (ℕ × ℕ)
  k : ℕ

/-- Forget the carver bookkeeping, keeping the wall state. -/
def CarveSt.toWalls (st : CarveSt) : Walls := ⟨st.hw, st.vw⟩

/-- Number of valid cells not yet visited (termination measure). -/
def unvisitedCount (N : ℕ) (s : Finset (ℕ × ℕ)) : ℕ :=
  ((validCells N).filter (fun c => c ∉ s)).card

theorem unvisitedCount_anti {N : ℕ} {s t : Finset (ℕ × ℕ)} (h : s ⊆ t) :
    unvisitedCount N t ≤ unvisitedCount N s := by
  refine Finset.card_le_card ?_
  intro x hx
  simp only [Finset.mem_filter] at hx ⊢
  exact ⟨hx.1, fun hmem => hx.2 (h hmem)⟩

theorem unvisitedCount_insert_lt {N : ℕ} {s : Finset (ℕ × ℕ)} {p : ℕ × ℕ}
    (hp1 : p.1 < N) (hp2 : p.2 < N) (hnp : p ∉ s) :
    unvisitedCount N (insert p s) < unvisitedCount N s := by
  have hmem : p ∈ (validCells N).filter (fun c => c ∉ s) := by
    simp only [Finset.mem_filter, mem_validCells]
    exact ⟨⟨hp1, hp2⟩, hnp⟩
  have hsub : (validCells N).filter (fun c => c ∉ insert p s) ⊆
      ((validCells N).filter (fun c => c ∉ s)).erase p := by
    intro x hx
    simp only [Finset.mem_filter, Finset.mem_insert, not_or] at hx
    simp only [Finset.mem_erase, Finset.mem_filter]
    exact ⟨hx.2.1, hx.1, hx.2.2⟩
  calc unvisitedCount N (insert p s)
      ≤ (((validCells N).filter (fun c => c ∉ s)).erase p).card :=
        Finset.card_le_card hsub
    _ < ((validCells N).filter (fun c => c ∉ s)).card :=
        Finset.card_erase_lt_of_mem hmem
    _ = unvisitedCount N s := rfl

/-- The wall-clearing `elif` chain of `_dfs_carve` for a move `(dr, dc)` out
of cell `(row, col)`.  For a direction outside the four axis moves the chain
falls through and clears nothing (the Python code would do the same). -/
def clearWallDir (st : CarveSt) (row col : ℕ) (dr dc : ℤ) : CarveSt :=
  if dr = 1 then { st with hw := set2 st.hw (row + 1) col false }
  else if dr = -1 then { st with hw := set2 st.hw row col false }
  else if dc = 1 then { st with vw := set2 st.vw row (col + 1) false }
  else if dc = -1 then { st with vw := set2 st.vw row col false }
  else st

@[simp] theorem clearWallDir_visited (st : CarveSt) (row col : ℕ) (dr dc : ℤ) :
    (clearWallDir st row col dr dc).visited = st.visited := by
  unfold clearWallDir
  split
  · rfl
  · split
    · rfl
    · split
      · rfl
      · split
        · rfl
        · rfl

@[simp] theorem clearWallDir_k (st : CarveSt) (row col : ℕ) (dr dc : ℤ) :
    (clearWallDir st row col dr dc).k = st.k := by
  unfold clearWallDir
  split
  · rfl
  · split
    · rfl
    · split
      · rfl
      · split
        · rfl
        · rfl

/-- The embedding of the body of `_dfs_carve`: process the (already
shuffled) direction list `dirs` for the current cell `(row, col)`.  A
recursive `self._dfs_carve(next_row, next_col, visited)` call appears as:
clear the connecting wall, mark the neighbour visited and bump the
invocation counter `k`, then recurse with the next shuffle `rs st.k` —
exactly the Python trace in which the callee marks itself visited first and
then shuffles a fresh direction list. -/
def carveGo (N : ℕ) (rs : ℕ → List (ℤ × ℤ)) :
    (row col : ℕ) → (dirs : List (ℤ × ℤ)) → (st : CarveSt) →
    {st' : CarveSt // st.visited ⊆ st'.visited}
  | _, _, [], st => ⟨st, Finset.Subset.refl _⟩
  | row, col, (dr, dc) :: rest, st =>
    -- `next_row, next_col = row + dr, col + dc`
    -- `if 0 <= next_row < grid_size and 0 <= next_col < grid_size and not visited[...]`
    if hval : 0 ≤ (row : ℤ) + dr ∧ (row : ℤ) + dr < (N : ℤ) ∧
        0 ≤ (col : ℤ) + dc ∧ (col : ℤ) + dc < (N : ℤ) ∧
        (((row : ℤ) + dr).toNat, ((col : ℤ) + dc).toNat) ∉ st.visited then
      let st1 := clearWallDir st row col dr dc
      let st2 : CarveSt := { st1 with
        visited := insert (((row : ℤ) + dr).toNat, ((col : ℤ) + dc).toNat) st1.visited,
        k := st1.k + 1 }
      let r1 := carveGo N rs (((row : ℤ) + dr).toNat) (((col : ℤ) + dc).toNat)
        (rs st1.k) st2
      let r2 := carveGo N rs row col rest r1.val
      ⟨r2.val, by
        refine Finset.Subset.trans ?_ (Finset.Subset.trans r1.property r2.property)
        show st.visited ⊆ insert (((row : ℤ) + dr).toNat, ((col : ℤ) + dc).toNat)
          (clearWallDir st row col dr dc).visited
        rw [clearWallDir_visited]
        exact Finset.subset_insert _ _⟩
    else
      carveGo N rs row col rest st
  termination_by row col dirs st => (unvisitedCount N st.visited, dirs.length)
  decreasing_by
  · -- recursing into the freshly visited neighbour
    apply Prod.Lex.left
    simp only [clearWallDir_visited]
    exact unvisitedCount_insert_lt (by simp; omega) (by simp; omega) hval.2.2.2.2
  · -- continuing with the remaining directions after the recursive call
    apply Prod.Lex.left
    calc unvisitedCount N r1.val.visited
        ≤ unvisitedCount N st2.visited := unvisitedCount_anti r1.property
      _ < unvisitedCount N st.visited := by
          simp only [st2, st1, clearWallDir_visited]
          exact unvisitedCount_insert_lt (by simp; omega) (by simp; omega)
            hval.2.2.2.2
  · -- skipping an out-of-bounds or already-visited neighbour
    apply Prod.Lex.right
    simp [List.length_cons]

/-- The embedding of `_generate_connected_maze_dfs` for start cell
`(sr, sc)`: walls all present, the start cell marked visited, then the DFS
with the first shuffle `rs 0`. -/
def dfsCarveFrom (N : ℕ) (rs : ℕ → List (ℤ × ℤ)) (sr sc : ℕ) : CarveSt :=
  (carveGo N rs sr sc (rs 0)
    { hw := fun _ _ => true, vw := fun _ _ => true,
      visited := {(sr, sc)}, k := 1 }).val

/-- The wall state produced by the carver. -/
def carvedWalls (N : ℕ) (rs : ℕ → List (ℤ × ℤ)) (sr sc : ℕ) : Walls :=
  (dfsCarveFrom N rs sr sc).toWalls

/-! ## Counting interior walls: `_count_inner_walls` -/

/-- The interior horizontal-wall index set (`range(1, N)` rows,
`range(N)` columns). -/
def innerH (N : ℕ) : Finset (ℕ × ℕ) := Finset.Ico 1 N ×ˢ Finset.range N

/-- The interior vertical-wall index set (`range(N)` rows,
`range(1, N)` columns). -/
def innerV (N : ℕ) : Finset (ℕ × ℕ) := Finset.range N ×ˢ Finset.Ico 1 N

/-- The embedding of `MazeGenerator._count_inner_walls`: number of present
(`true`) interior wall entries. -/
def countInnerWalls (N : ℕ) (hw vw : ℕ → ℕ → Bool) : ℕ :=
  ((innerH N).filter fun p => hw p.1 p.2 = true).card +
    ((innerV N).filter fun p => vw p.1 p.2 = true).card

/-- Number of cleared (`false`) interior wall entries — not a function of
the Python code, but the quantity the specification calls "cleared walls". -/
def clearedInnerWalls (N : ℕ) (hw vw : ℕ → ℕ → Bool) : ℕ :=
  ((innerH N).filter fun p => hw p.1 p.2 = false).card +
    ((innerV N).filter fun p => vw p.1 p.2 = false).card

theorem card_innerH (N : ℕ) : (innerH N).card = (N - 1) * N := by
  simp [innerH]

theorem card_innerV (N : ℕ) : (innerV N).card = N * (N - 1) := by
  simp [innerV]

/-- Present and cleared interior walls partition the interior index sets. -/
theorem countInnerWalls_add_cleared (N : ℕ) (hw vw : ℕ → ℕ → Bool) :
    countInnerWalls N hw vw + clearedInnerWalls N hw vw = 2 * N * (N - 1) := by
  unfold countInnerWalls clearedInnerWalls
  have h1 : ((innerH N).filter fun p => hw p.1 p.2 = true).card +
      ((innerH N).filter fun p => hw p.1 p.2 = false).card = (innerH N).card := by
    have hbase := Finset.filter_card_add_filter_neg_card_eq_card
      (s := innerH N) (p := fun p => hw p.1 p.2 = true)
    have heq : (innerH N).filter (fun p => ¬hw p.1 p.2 = true) =
        (innerH N).filter (fun p => hw p.1 p.2 = false) := by
      apply Finset.filter_congr
      intro x _
      simp
    rw [heq] at hbase
    exact hbase
  have h2 : ((innerV N).filter fun p => vw p.1 p.2 = true).card +
      ((innerV N).filter fun p => vw p.1 p.2 = false).card = (innerV N).card := by
    have hbase := Finset.filter_card_add_filter_neg_card_eq_card
      (s := innerV N) (p := fun p => vw p.1 p.2 = true)
    have heq : (innerV N).filter (fun p => ¬vw p.1 p.2 = true) =
        (innerV N).filter (fun p => vw p.1 p.2 = false) := by
      apply Finset.filter_congr
      intro x _
      simp
    rw [heq] at hbase
    exact hbase
  have := card_innerH N
  have := card_innerV N
  have hN : (N - 1) * N + N * (N - 1) = 2 * N * (N - 1) := by ring
  omega

/-- Clearing one entry removes exactly that index from the `true` filter. -/
theorem filter_set2_false (S : Finset (ℕ × ℕ)) (f : ℕ → ℕ → Bool) (i j : ℕ) :
    (S.filter fun p => set2 f i j false p.1 p.2 = true) =
      (S.filter fun p => f p.1 p.2 = true).erase (i, j) := by
  ext x
  simp only [Finset.mem_filter, Finset.mem_erase, set2]
  constructor
  · intro ⟨hxS, hval⟩
    split at hval
    · exact absurd hval (by simp)
    · refine ⟨fun hx => ?_, hxS, hval⟩
      subst hx
      simp_all
  · intro ⟨hne, hxS, hval⟩
    refine ⟨hxS, ?_⟩
    rw [if_neg]
    · exact hval
    · intro ⟨ha, hb⟩
      exact hne (Prod.ext ha hb)

/-- Setting one entry adds exactly that index to the `true` filter. -/
theorem filter_set2_true (S : Finset (ℕ × ℕ)) (f : ℕ → ℕ → Bool) (i j : ℕ)
    (hmem : (i, j) ∈ S) :
    (S.filter fun p => set2 f i j true p.1 p.2 = true) =
      insert (i, j) (S.filter fun p => f p.1 p.2 = true) := by
  ext x
  simp only [Finset.mem_filter, Finset.mem_insert, set2]
  constructor
  · intro ⟨hxS, hval⟩
    split at hval
    · rename_i hx
      exact Or.inl (Prod.ext hx.1 hx.2)
    · exact Or.inr ⟨hxS, hval⟩
  · rintro (rfl | ⟨hxS, hval⟩)
    · exact ⟨hmem, by simp⟩
    · refine ⟨hxS, ?_⟩
      split
      · rfl
      · exact hval

/-! ## The carver invariant -/

/-- Both boundary rings are intact: rows `0` and `N` of the horizontal
walls, columns `0` and `N` of the vertical walls (invariant I1). -/
def BoundaryTrue (N : ℕ) (hw vw : ℕ → ℕ → Bool) : Prop :=
  (∀ c < N, hw 0 c = true ∧ hw N c = true) ∧
    (∀ r < N, vw r 0 = true ∧ vw r N = true)

/-- The invariant maintained by `_dfs_carve` (holding between any two
recursive invocations), for a DFS started at `start`:

* visited cells are valid and include the start;
* every visited cell is reachable from the start through open walls;
* the boundary rings are intact (I1);
* every cleared interior wall has both endpoints visited (so interior walls
  touching unvisited cells are still present);
* present interior walls + visited cells is constant (`2N(N−1) + 1`);
* `k` (dfs invocations, = shuffles consumed) equals the visited count. -/
structure CarveInv (N : ℕ) (start : ℕ × ℕ) (st : CarveSt) : Prop where
  visValid : ∀ p ∈ st.visited, p.1 < N ∧ p.2 < N
  startMem : start ∈ st.visited
  reach : ∀ p ∈ st.visited,
    Relation.ReflTransGen (adjOpen N st.hw st.vw) start p
  boundary : BoundaryTrue N st.hw st.vw
  falseClosedH : ∀ r c, 1 ≤ r → r < N → c < N → st.hw r c = false →
    (r - 1, c) ∈ st.visited ∧ (r, c) ∈ st.visited
  falseClosedV : ∀ r c, r < N → 1 ≤ c → c < N → st.vw r c = false →
    (r, c - 1) ∈ st.visited ∧ (r, c) ∈ st.visited
  count : countInnerWalls N st.hw st.vw + st.visited.card = 2 * N * (N - 1) + 1
  kCount : st.k = st.visited.card

theorem set2_false_mono (f : ℕ → ℕ → Bool) (i j : ℕ) :
    ∀ a b, f a b = false → set2 f i j false a b = false := by
  intro a b hab
  by_cases h : a = i ∧ b = j
  · simp [set2, h]
  · rw [set2_other _ _ h]
    exact hab

theorem adjOpen_mono {N : ℕ} {hw vw hw' vw' : ℕ → ℕ → Bool}
    (hh : ∀ r c, hw r c = false → hw' r c = false)
    (hv : ∀ r c, vw r c = false → vw' r c = false) :
    ∀ {a b : ℕ × ℕ}, adjOpen N hw vw a b → adjOpen N hw' vw' a b := by
  rintro a b ⟨h1, h2, h3, h4, hc⟩
  refine ⟨h1, h2, h3, h4, ?_⟩
  rcases hc with ⟨he, hw0⟩ | ⟨he, hw0⟩ | ⟨he, hw0⟩ | ⟨he, hw0⟩
  · exact Or.inl ⟨he, hh _ _ hw0⟩
  · exact Or.inr (Or.inl ⟨he, hh _ _ hw0⟩)
  · exact Or.inr (Or.inr (Or.inl ⟨he, hv _ _ hw0⟩))
  · exact Or.inr (Or.inr (Or.inr ⟨he, hv _ _ hw0⟩))

/-- The invariant at the moment `_dfs_carve` is first entered. -/
theorem carveInv_init (N sr sc : ℕ) (hsr : sr < N) (hsc : sc < N) :
    CarveInv N (sr, sc)
      { hw := fun _ _ => true, vw := fun _ _ => true,
        visited := {(sr, sc)}, k := 1 } := by
  constructor
  · intro p hp
    simp only [Finset.mem_singleton] at hp
    subst hp
    exact ⟨hsr, hsc⟩
  · exact Finset.mem_singleton_self _
  · intro p hp
    simp only [Finset.mem_singleton] at hp
    subst hp
    exact Relation.ReflTransGen.refl
  · exact ⟨fun c _ => ⟨rfl, rfl⟩, fun r _ => ⟨rfl, rfl⟩⟩
  · intro r c _ _ _ hfalse
    simp at hfalse
  · intro r c _ _ _ hfalse
    simp at hfalse
  · show countInnerWalls N _ _ + ({((sr : ℕ), (sc : ℕ))} : Finset (ℕ × ℕ)).card =
      2 * N * (N - 1) + 1
    rw [Finset.card_singleton]
    unfold countInnerWalls
    rw [Finset.filter_true_of_mem (by intro x _; rfl),
      Finset.filter_true_of_mem (by intro x _; rfl), card_innerH, card_innerV]
    ring
  · simp

/-- Clearing the interior horizontal wall `(i, j)` between a visited and an
unvisited cell, then marking the unvisited endpoint, preserves the carver
invariant. -/
theorem carveStepH (N : ℕ) (start : ℕ × ℕ) {st : CarveSt}
    (inv : CarveInv N start st) {i j : ℕ}
    (hi1 : 1 ≤ i) (hi2 : i < N) (hj : j < N) {old new : ℕ × ℕ}
    (hends : (old = (i - 1, j) ∧ new = (i, j)) ∨
      (old = (i, j) ∧ new = (i - 1, j)))
    (hold : old ∈ st.visited) (hnew : new ∉ st.visited) :
    CarveInv N start
      { hw := set2 st.hw i j false, vw := st.vw,
        visited := insert new st.visited, k := st.k + 1 } := by
  have hhwij : st.hw i j = true := by
    by_contra hft
    rw [Bool.not_eq_true] at hft
    have hboth := inv.falseClosedH i j hi1 hi2 hj hft
    rcases hends with ⟨h1, h2⟩ | ⟨h1, h2⟩
    · exact hnew (h2 ▸ hboth.2)
    · exact hnew (h2 ▸ hboth.1)
  have hmono : ∀ {a b : ℕ × ℕ}, adjOpen N st.hw st.vw a b →
      adjOpen N (set2 st.hw i j false) st.vw a b :=
    adjOpen_mono (set2_false_mono st.hw i j) (fun _ _ h => h)
  have hadj : adjOpen N (set2 st.hw i j false) st.vw old new := by
    rcases hends with ⟨h1, h2⟩ | ⟨h1, h2⟩
    · subst h1; subst h2
      refine ⟨by simp; omega, hj, hi2, hj, Or.inl ⟨?_, ?_⟩⟩
      · refine Prod.ext ?_ ?_
        · simp; omega
        · simp
      · show set2 st.hw i j false ((i - 1 : ℕ) + 1) j = false
        have h5 : (i - 1 : ℕ) + 1 = i := by omega
        rw [h5]
        exact set2_same _ _ _ _
    · subst h1; subst h2
      refine ⟨hi2, hj, by simp; omega, hj, Or.inr (Or.inl ⟨?_, ?_⟩)⟩
      · refine Prod.ext ?_ ?_
        · simp; omega
        · simp
      · exact set2_same _ _ _ _
  constructor
  · intro p hp
    rcases Finset.mem_insert.mp hp with rfl | hp
    · rcases hends with ⟨-, h2⟩ | ⟨-, h2⟩
      · subst h2; exact ⟨hi2, hj⟩
      · subst h2; exact ⟨by omega, hj⟩
    · exact inv.visValid p hp
  · exact Finset.mem_insert_of_mem inv.startMem
  · intro p hp
    rcases Finset.mem_insert.mp hp with rfl | hp
    · exact Relation.ReflTransGen.tail
        ((Relation.ReflTransGen.mono fun a b => hmono) (inv.reach old hold)) hadj
    · exact (Relation.ReflTransGen.mono fun a b => hmono) (inv.reach p hp)
  · refine ⟨fun c hc => ⟨?_, ?_⟩, inv.boundary.2⟩
    · show set2 st.hw i j false 0 c = true
      rw [set2_other _ _ (by omega)]
      exact (inv.boundary.1 c hc).1
    · show set2 st.hw i j false N c = true
      rw [set2_other _ _ (by omega)]
      exact (inv.boundary.1 c hc).2
  · intro r c hr1 hr2 hc hfalse
    have hfalse' : set2 st.hw i j false r c = false := hfalse
    by_cases hrc : r = i ∧ c = j
    · obtain ⟨rfl, rfl⟩ := hrc
      rcases hends with ⟨h1, h2⟩ | ⟨h1, h2⟩
      · exact ⟨h1 ▸ Finset.mem_insert_of_mem hold, h2 ▸ Finset.mem_insert_self _ _⟩
      · exact ⟨h2 ▸ Finset.mem_insert_self _ _, h1 ▸ Finset.mem_insert_of_mem hold⟩
    · rw [set2_other _ _ hrc] at hfalse'
      have hboth := inv.falseClosedH r c hr1 hr2 hc hfalse'
      exact ⟨Finset.mem_insert_of_mem hboth.1, Finset.mem_insert_of_mem hboth.2⟩
  · intro r c hr hc1 hc2 hfalse
    have hfalse' : st.vw r c = false := hfalse
    have hboth := inv.falseClosedV r c hr hc1 hc2 hfalse'
    exact ⟨Finset.mem_insert_of_mem hboth.1, Finset.mem_insert_of_mem hboth.2⟩
  · show countInnerWalls N (set2 st.hw i j false) st.vw +
      (insert new st.visited).card = 2 * N * (N - 1) + 1
    have hij_mem : (i, j) ∈ innerH N := by
      simp only [innerH, Finset.mem_product, Finset.mem_Ico, Finset.mem_range]
      exact ⟨⟨hi1, hi2⟩, hj⟩
    have hij_filt : (i, j) ∈ (innerH N).filter fun p => st.hw p.1 p.2 = true :=
      Finset.mem_filter.mpr ⟨hij_mem, hhwij⟩
    have hcount : countInnerWalls N (set2 st.hw i j false) st.vw + 1 =
        countInnerWalls N st.hw st.vw := by
      unfold countInnerWalls
      rw [filter_set2_false, Finset.card_erase_of_mem hij_filt]
      have hpos : 1 ≤ ((innerH N).filter fun p => st.hw p.1 p.2 = true).card :=
        Finset.card_pos.mpr ⟨(i, j), hij_filt⟩
      omega
    rw [Finset.card_insert_of_not_mem hnew]
    have := inv.count
    omega
  · show st.k + 1 = (insert new st.visited).card
    rw [Finset.card_insert_of_not_mem hnew, inv.kCount]

/-- Clearing the interior vertical wall `(i, j)` between a visited and an
unvisited cell, then marking the unvisited endpoint, preserves the carver
invariant. -/
theorem carveStepV (N : ℕ) (start : ℕ × ℕ) {st : CarveSt}
    (inv : CarveInv N start st) {i j : ℕ}
    (hi : i < N) (hj1 : 1 ≤ j) (hj2 : j < N) {old new : ℕ × ℕ}
    (hends : (old = (i, j - 1) ∧ new = (i, j)) ∨
      (old = (i, j) ∧ new = (i, j - 1)))
    (hold : old ∈ st.visited) (hnew : new ∉ st.visited) :
    CarveInv N start
      { hw := st.hw, vw := set2 st.vw i j false,
        visited := insert new st.visited, k := st.k + 1 } := by
  have hvwij : st.vw i j = true := by
    by_contra hft
    rw [Bool.not_eq_true] at hft
    have hboth := inv.falseClosedV i j hi hj1 hj2 hft
    rcases hends with ⟨h1, h2⟩ | ⟨h1, h2⟩
    · exact hnew (h2 ▸ hboth.2)
    · exact hnew (h2 ▸ hboth.1)
  have hmono : ∀ {a b : ℕ × ℕ}, adjOpen N st.hw st.vw a b →
      adjOpen N st.hw (set2 st.vw i j false) a b :=
    adjOpen_mono (fun _ _ h => h) (set2_false_mono st.vw i j)
  have hadj : adjOpen N st.hw (set2 st.vw i j false) old new := by
    rcases hends with ⟨h1, h2⟩ | ⟨h1, h2⟩
    · subst h1; subst h2
      refine ⟨hi, by simp; omega, hi, hj2, Or.inr (Or.inr (Or.inl ⟨?_, ?_⟩))⟩
      · refine Prod.ext ?_ ?_
        · simp
        · simp; omega
      · show set2 st.vw i j false i ((j - 1 : ℕ) + 1) = false
        have h5 : (j - 1 : ℕ) + 1 = j := by omega
        rw [h5]
        exact set2_same _ _ _ _
    · subst h1; subst h2
      refine ⟨hi, hj2, hi, by simp; omega, Or.inr (Or.inr (Or.inr ⟨?_, ?_⟩))⟩
      · refine Prod.ext ?_ ?_
        · simp
        · simp; omega
      · exact set2_same _ _ _ _
  constructor
  · intro p hp
    rcases Finset.mem_insert.mp hp with rfl | hp
    · rcases hends with ⟨-, h2⟩ | ⟨-, h2⟩
      · subst h2; exact ⟨hi, hj2⟩
      · subst h2; exact ⟨hi, by omega⟩
    · exact inv.visValid p hp
  · exact Finset.mem_insert_of_mem inv.startMem
  · intro p hp
    rcases Finset.mem_insert.mp hp with rfl | hp
    · exact Relation.ReflTransGen.tail
        ((Relation.ReflTransGen.mono fun a b => hmono) (inv.reach old hold)) hadj
    · exact (Relation.ReflTransGen.mono fun a b => hmono) (inv.reach p hp)
  · refine ⟨inv.boundary.1, fun r hr => ⟨?_, ?_⟩⟩
    · show set2 st.vw i j false r 0 = true
      rw [set2_other _ _ (by omega)]
      exact (inv.boundary.2 r hr).1
    · show set2 st.vw i j false r N = true
      rw [set2_other _ _ (by omega)]
      exact (inv.boundary.2 r hr).2
  · intro r c hr1 hr2 hc hfalse
    have hfalse' : st.hw r c = false := hfalse
    have hboth := inv.falseClosedH r c hr1 hr2 hc hfalse'
    exact ⟨Finset.mem_insert_of_mem hboth.1, Finset.mem_insert_of_mem hboth.2⟩
  · intro r c hr hc1 hc2 hfalse
    have hfalse' : set2 st.vw i j false r c = false := hfalse
    by_cases hrc : r = i ∧ c = j
    · obtain ⟨rfl, rfl⟩ := hrc
      rcases hends with ⟨h1, h2⟩ | ⟨h1, h2⟩
      · exact ⟨h1 ▸ Finset.mem_insert_of_mem hold, h2 ▸ Finset.mem_insert_self _ _⟩
      · exact ⟨h2 ▸ Finset.mem_insert_self _ _, h1 ▸ Finset.mem_insert_of_mem hold⟩
    · rw [set2_other _ _ hrc] at hfalse'
      have hboth := inv.falseClosedV r c hr hc1 hc2 hfalse'
      exact ⟨Finset.mem_insert_of_mem hboth.1, Finset.mem_insert_of_mem hboth.2⟩
  · show countInnerWalls N st.hw (set2 st.vw i j false) +
      (insert new st.visited).card = 2 * N * (N - 1) + 1
    have hij_mem : (i, j) ∈ innerV N := by
      simp only [innerV, Finset.mem_product, Finset.mem_Ico, Finset.mem_range]
      exact ⟨hi, hj1, hj2⟩
    have hij_filt : (i, j) ∈ (innerV N).filter fun p => st.vw p.1 p.2 = true :=
      Finset.mem_filter.mpr ⟨hij_mem, hvwij⟩
    have hcount : countInnerWalls N st.hw (set2 st.vw i j false) + 1 =
        countInnerWalls N st.hw st.vw := by
      unfold countInnerWalls
      rw [filter_set2_false, Finset.card_erase_of_mem hij_filt]
      have hpos : 1 ≤ ((innerV N).filter fun p => st.vw p.1 p.2 = true).card :=
        Finset.card_pos.mpr ⟨(i, j), hij_filt⟩
      omega
    rw [Finset.card_insert_of_not_mem hnew]
    have := inv.count
    omega
  · show st.k + 1 = (insert new st.visited).card
    rw [Finset.card_insert_of_not_mem hnew, inv.kCount]

/-! ### Unfolding equations and direction-wise reductions for the carver -/

theorem carveGo_nil (N : ℕ) (rs : ℕ → List (ℤ × ℤ)) (row col : ℕ)
    (st : CarveSt) : (carveGo N rs row col [] st).val = st := by
  rw [carveGo]

theorem carveGo_cons_pos (N : ℕ) (rs : ℕ → List (ℤ × ℤ)) (row col : ℕ)
    (dr dc : ℤ) (rest : List (ℤ × ℤ)) (st : CarveSt)
    (hval : 0 ≤ (row : ℤ) + dr ∧ (row : ℤ) + dr < (N : ℤ) ∧
      0 ≤ (col : ℤ) + dc ∧ (col : ℤ) + dc < (N : ℤ) ∧
      (((row : ℤ) + dr).toNat, ((col : ℤ) + dc).toNat) ∉ st.visited) :
    (carveGo N rs row col ((dr, dc) :: rest) st).val =
      (carveGo N rs row col rest
        (carveGo N rs (((row : ℤ) + dr).toNat) (((col : ℤ) + dc).toNat)
          (rs (clearWallDir st row col dr dc).k)
          { hw := (clearWallDir st row col dr dc).hw,
            vw := (clearWallDir st row col dr dc).vw,
            visited := insert (((row : ℤ) + dr).toNat, ((col : ℤ) + dc).toNat)
              (clearWallDir st row col dr dc).visited,
            k := (clearWallDir st row col dr dc).k + 1 }).val).val := by
  rw [carveGo]
  rw [dif_pos hval]

theorem carveGo_cons_neg (N : ℕ) (rs : ℕ → List (ℤ × ℤ)) (row col : ℕ)
    (dr dc : ℤ) (rest : List (ℤ × ℤ)) (st : CarveSt)
    (hval : ¬(0 ≤ (row : ℤ) + dr ∧ (row : ℤ) + dr < (N : ℤ) ∧
      0 ≤ (col : ℤ) + dc ∧ (col : ℤ) + dc < (N : ℤ) ∧
      (((row : ℤ) + dr).toNat, ((col : ℤ) + dc).toNat) ∉ st.visited)) :
    (carveGo N rs row col ((dr, dc) :: rest) st).val =
      (carveGo N rs row col rest st).val := by
  rw [carveGo]
  rw [dif_neg hval]

/-- Moving right (`(dr, dc) = (0, 1)`): clear `vertical_walls[row][col+1]`. -/
theorem clearWallDir_right (st : CarveSt) (row col : ℕ) :
    clearWallDir st row col 0 1 =
      { st with vw := set2 st.vw row (col + 1) false } := by
  norm_num [clearWallDir]

/-- Moving down (`(dr, dc) = (1, 0)`): clear `horizontal_walls[row+1][col]`. -/
theorem clearWallDir_down (st : CarveSt) (row col : ℕ) :
    clearWallDir st row col 1 0 =
      { st with hw := set2 st.hw (row + 1) col false } := by
  norm_num [clearWallDir]

/-- Moving left (`(dr, dc) = (0, -1)`): clear `vertical_walls[row][col]`. -/
theorem clearWallDir_left (st : CarveSt) (row col : ℕ) :
    clearWallDir st row col 0 (-1) =
      { st with vw := set2 st.vw row col false } := by
  norm_num [clearWallDir]

/-- Moving up (`(dr, dc) = (-1, 0)`): clear `horizontal_walls[row][col]`. -/
theorem clearWallDir_up (st : CarveSt) (row col : ℕ) :
    clearWallDir st row col (-1) 0 =
      { st with hw := set2 st.hw row col false } := by
  norm_num [clearWallDir]

/-- The carver only grows the visited set. -/
theorem carveGo_mono (N : ℕ) (rs : ℕ → List (ℤ × ℤ)) (row col : ℕ)
    (dirs : List (ℤ × ℤ)) (st : CarveSt) :
    st.visited ⊆ (carveGo N rs row col dirs st).val.visited :=
  (carveGo N rs row col dirs st).property

/-- The carver `_dfs_carve` preserves the carver invariant: processing any suffix of the
shuffled direction list for the (already visited) current cell maintains
`CarveInv`. -/
theorem carveGo_inv (N : ℕ) (rs : ℕ → List (ℤ × ℤ)) (start : ℕ × ℕ)
    (hrs : IsShuffleSeq rs) :
    ∀ (row col : ℕ) (dirs : List (ℤ × ℤ)) (st : CarveSt),
    (row, col) ∈ st.visited →
    (∀ d ∈ dirs, d ∈ baseDirections) →
    CarveInv N start st →
    CarveInv N start (carveGo N rs row col dirs st).val := by
  intro row col dirs st
  induction row, col, dirs, st using carveGo.induct N rs with
  | case1 row col st =>
    intro hmem hdirs inv
    rw [carveGo_nil]
    exact inv
  | case2 row col dr dc rest st hval st1 st2 r1 ihA ihB ihC ihD =>
    intro hmem hdirs inv
    have hrow := inv.visValid _ hmem
    have hdirs' : ∀ d ∈ rest, d ∈ baseDirections :=
      fun d hd' => hdirs d (List.mem_cons_of_mem _ hd')
    have hdirs2 : ∀ d ∈ rs (clearWallDir st row col dr dc).k,
        d ∈ baseDirections := fun d hd2 => ((hrs _).mem_iff).mp hd2
    have hmem_st2 : (row, col) ∈
        insert ((((row : ℤ) + dr).toNat, ((col : ℤ) + dc).toNat))
          (clearWallDir st row col dr dc).visited := by
      refine Finset.mem_insert_of_mem ?_
      rw [clearWallDir_visited]
      exact hmem
    have hd : (dr, dc) ∈ baseDirections := hdirs _ (List.mem_cons_self _ _)
    have inv2 : CarveInv N start
        { hw := (clearWallDir st row col dr dc).hw,
          vw := (clearWallDir st row col dr dc).vw,
          visited := insert ((((row : ℤ) + dr).toNat, ((col : ℤ) + dc).toNat))
            (clearWallDir st row col dr dc).visited,
          k := (clearWallDir st row col dr dc).k + 1 } := by
      simp only [baseDirections, List.mem_cons, List.not_mem_nil, or_false,
        Prod.mk.injEq] at hd
      rcases hd with ⟨rfl, rfl⟩ | ⟨rfl, rfl⟩ | ⟨rfl, rfl⟩ | ⟨rfl, rfl⟩
      · -- right `(0, 1)`
        have e1 : ((row : ℤ) + 0).toNat = row := by omega
        have e2 : ((col : ℤ) + 1).toNat = col + 1 := by omega
        rw [clearWallDir_right, e1, e2]
        show CarveInv N start
          { hw := st.hw, vw := set2 st.vw row (col + 1) false,
            visited := insert (row, col + 1) st.visited, k := st.k + 1 }
        refine carveStepV N start inv hrow.1 (by omega) (by omega)
          (Or.inl ⟨Prod.ext rfl (by omega), rfl⟩) hmem ?_
        have h5 := hval.2.2.2.2
        rw [e1, e2] at h5
        exact h5
      · -- down `(1, 0)`
        have e1 : ((row : ℤ) + 1).toNat = row + 1 := by omega
        have e2 : ((col : ℤ) + 0).toNat = col := by omega
        rw [clearWallDir_down, e1, e2]
        show CarveInv N start
          { hw := set2 st.hw (row + 1) col false, vw := st.vw,
            visited := insert (row + 1, col) st.visited, k := st.k + 1 }
        refine carveStepH N start inv (by omega) ?_ hrow.2
          (Or.inl ⟨Prod.ext (by omega) rfl, rfl⟩) hmem ?_
        · have h2 := hval.2.1
          omega
        · have h5 := hval.2.2.2.2
          rw [e1, e2] at h5
          exact h5
      · -- left `(0, -1)`
        have e1 : ((row : ℤ) + 0).toNat = row := by omega
        have hcol1 : 1 ≤ col := by
          have h3 := hval.2.2.1
          omega
        have e2 : ((col : ℤ) + (-1)).toNat = col - 1 := by omega
        rw [clearWallDir_left, e1, e2]
        show CarveInv N start
          { hw := st.hw, vw := set2 st.vw row col false,
            visited := insert (row, col - 1) st.visited, k := st.k + 1 }
        refine carveStepV N start inv hrow.1 hcol1 hrow.2
          (Or.inr ⟨rfl, rfl⟩) hmem ?_
        have h5 := hval.2.2.2.2
        rw [e1, e2] at h5
        exact h5
      · -- up `(-1, 0)`
        have hrow1 : 1 ≤ row := by
          have h1 := hval.1
          omega
        have e1 : ((row : ℤ) + (-1)).toNat = row - 1 := by omega
        have e2 : ((col : ℤ) + 0).toNat = col := by omega
        rw [clearWallDir_up, e1, e2]
        show CarveInv N start
          { hw := set2 st.hw row col false, vw := st.vw,
            visited := insert (row - 1, col) st.visited, k := st.k + 1 }
        refine carveStepH N start inv hrow1 hrow.1 hrow.2
          (Or.inr ⟨rfl, rfl⟩) hmem ?_
        have h5 := hval.2.2.2.2
        rw [e1, e2] at h5
        exact h5
    rw [carveGo_cons_pos N rs row col dr dc rest st hval]
    exact ihD (carveGo_mono N rs _ _ _ _ hmem_st2) hdirs'
      (ihB (Finset.mem_insert_self _ _) hdirs2 inv2)
  | case3 row col dr dc rest st hval ih =>
    intro hmem hdirs inv
    rw [carveGo_cons_neg N rs row col dr dc rest st hval]
    exact ih hmem (fun d hd' => hdirs d (List.mem_cons_of_mem _ hd')) inv

/-! ### The carver visits the whole grid -/

/-- Plain grid adjacency (walls ignored): the moves `_dfs_carve` may try. -/
def gridAdj (N : ℕ) (a b : ℕ × ℕ) : Prop :=
  a.1 < N ∧ a.2 < N ∧ b.1 < N ∧ b.2 < N ∧
    ((b.1 = a.1 + 1 ∧ b.2 = a.2) ∨ (a.1 = b.1 + 1 ∧ b.2 = a.2) ∨
     (b.2 = a.2 + 1 ∧ b.1 = a.1) ∨ (a.2 = b.2 + 1 ∧ b.1 = a.1))

theorem gridAdj_symm {N : ℕ} : ∀ {a b : ℕ × ℕ}, gridAdj N a b → gridAdj N b a := by
  rintro a b ⟨h1, h2, h3, h4, hc⟩
  refine ⟨h3, h4, h1, h2, ?_⟩
  tauto

/-- The `gridAdj` neighbours of a cell are exactly the in-bounds direction
moves of `_dfs_carve`. -/
theorem gridAdj_iff_dir {N : ℕ} {p q : ℕ × ℕ} (hp1 : p.1 < N) (hp2 : p.2 < N) :
    gridAdj N p q ↔ ∃ d ∈ baseDirections,
      0 ≤ (p.1 : ℤ) + d.1 ∧ (p.1 : ℤ) + d.1 < (N : ℤ) ∧
      0 ≤ (p.2 : ℤ) + d.2 ∧ (p.2 : ℤ) + d.2 < (N : ℤ) ∧
      q = (((p.1 : ℤ) + d.1).toNat, ((p.2 : ℤ) + d.2).toNat) := by
  constructor
  · rintro ⟨-, -, h3, h4, hc⟩
    rcases hc with ⟨ha, hb⟩ | ⟨ha, hb⟩ | ⟨ha, hb⟩ | ⟨ha, hb⟩
    · refine ⟨(1, 0), by simp [baseDirections], by omega, by omega, by omega,
        by omega, ?_⟩
      refine Prod.ext ?_ ?_
      · show q.1 = ((p.1 : ℤ) + 1).toNat
        omega
      · show q.2 = ((p.2 : ℤ) + 0).toNat
        omega
    · refine ⟨(-1, 0), by simp [baseDirections], by omega, by omega, by omega,
        by omega, ?_⟩
      refine Prod.ext ?_ ?_
      · show q.1 = ((p.1 : ℤ) + (-1)).toNat
        omega
      · show q.2 = ((p.2 : ℤ) + 0).toNat
        omega
    · refine ⟨(0, 1), by simp [baseDirections], by omega, by omega, by omega,
        by omega, ?_⟩
      refine Prod.ext ?_ ?_
      · show q.1 = ((p.1 : ℤ) + 0).toNat
        omega
      · show q.2 = ((p.2 : ℤ) + 1).toNat
        omega
    · refine ⟨(0, -1), by simp [baseDirections], by omega, by omega, by omega,
        by omega, ?_⟩
      refine Prod.ext ?_ ?_
      · show q.1 = ((p.1 : ℤ) + 0).toNat
        omega
      · show q.2 = ((p.2 : ℤ) + (-1)).toNat
        omega
  · rintro ⟨⟨d1, d2⟩, hd, hb1, hb2, hb3, hb4, rfl⟩
    simp only [baseDirections, List.mem_cons, List.not_mem_nil, or_false,
      Prod.mk.injEq] at hd
    rcases hd with ⟨rfl, rfl⟩ | ⟨rfl, rfl⟩ | ⟨rfl, rfl⟩ | ⟨rfl, rfl⟩
    · -- `(0, 1)`: move right
      exact ⟨hp1, hp2, by simp; try omega, by simp; try omega,
        Or.inr (Or.inr (Or.inl ⟨by simp; try omega, by simp; try omega⟩))⟩
    · -- `(1, 0)`: move down
      exact ⟨hp1, hp2, by simp; try omega, by simp; try omega,
        Or.inl ⟨by simp; try omega, by simp; try omega⟩⟩
    · -- `(0, -1)`: move left
      exact ⟨hp1, hp2, by simp; try omega, by simp; try omega,
        Or.inr (Or.inr (Or.inr ⟨by simp; try omega, by simp; try omega⟩))⟩
    · -- `(-1, 0)`: move up
      exact ⟨hp1, hp2, by simp; try omega, by simp; try omega,
        Or.inr (Or.inl ⟨by simp; try omega, by simp; try omega⟩)⟩

/-- After `_dfs_carve` has processed the pending direction list of the
current cell, each in-bounds neighbour in one of those directions is
visited. -/
theorem carveGo_processed (N : ℕ) (rs : ℕ → List (ℤ × ℤ)) :
    ∀ (row col : ℕ) (dirs : List (ℤ × ℤ)) (st : CarveSt),
    ∀ dr dc, (dr, dc) ∈ dirs →
    0 ≤ (row : ℤ) + dr → (row : ℤ) + dr < (N : ℤ) →
    0 ≤ (col : ℤ) + dc → (col : ℤ) + dc < (N : ℤ) →
    (((row : ℤ) + dr).toNat, ((col : ℤ) + dc).toNat) ∈
      (carveGo N rs row col dirs st).val.visited := by
  intro row col dirs st
  induction row, col, dirs, st using carveGo.induct N rs with
  | case1 row col st =>
    intro dr dc hmem _ _ _ _
    exact absurd hmem (List.not_mem_nil _)
  | case2 row col dr0 dc0 rest st hval st1 st2 r1 ihA ihB ihC ihD =>
    intro dr dc hmem hb1 hb2 hb3 hb4
    rw [carveGo_cons_pos N rs row col dr0 dc0 rest st hval]
    rcases List.mem_cons.mp hmem with heq | hrest
    · have h1 : dr0 = dr := (congrArg Prod.fst heq).symm
      have h2 : dc0 = dc := (congrArg Prod.snd heq).symm
      rw [← h1, ← h2]
      refine carveGo_mono N rs _ _ _ _ (carveGo_mono N rs _ _ _ _ ?_)
      exact Finset.mem_insert_self _ _
    · exact ihD dr dc hrest hb1 hb2 hb3 hb4
  | case3 row col dr0 dc0 rest st hval ih =>
    intro dr dc hmem hb1 hb2 hb3 hb4
    rw [carveGo_cons_neg N rs row col dr0 dc0 rest st hval]
    rcases List.mem_cons.mp hmem with heq | hrest
    · have h1 : dr0 = dr := (congrArg Prod.fst heq).symm
      have h2 : dc0 = dc := (congrArg Prod.snd heq).symm
      have hin : (((row : ℤ) + dr).toNat, ((col : ℤ) + dc).toNat) ∈ st.visited := by
        by_contra hnot
        apply hval
        rw [h1, h2]
        exact ⟨hb1, hb2, hb3, hb4, hnot⟩
      exact carveGo_mono N rs _ _ _ _ hin
    · exact ih dr dc hrest hb1 hb2 hb3 hb4

/-- Every cell first visited inside a `carveGo` call has, at the end of that
call, all of its grid neighbours visited: the recursive call entered for it
processes a full (shuffled) direction list. -/
theorem carveGo_newClosed (N : ℕ) (rs : ℕ → List (ℤ × ℤ))
    (hrs : IsShuffleSeq rs) :
    ∀ (row col : ℕ) (dirs : List (ℤ × ℤ)) (st : CarveSt),
    ∀ p ∈ (carveGo N rs row col dirs st).val.visited, p ∉ st.visited →
    ∀ q, gridAdj N p q → q ∈ (carveGo N rs row col dirs st).val.visited := by
  intro row col dirs st
  induction row, col, dirs, st using carveGo.induct N rs with
  | case1 row col st =>
    intro p hp hpnot q hq
    rw [carveGo_nil] at hp
    exact absurd hp hpnot
  | case2 row col dr0 dc0 rest st hval st1 st2 r1 ihA ihB ihC ihD =>
    intro p hp hpnot q hq
    rw [carveGo_cons_pos N rs row col dr0 dc0 rest st hval] at hp ⊢
    by_cases hp1 : p ∈ (carveGo N rs (((row : ℤ) + dr0).toNat)
        (((col : ℤ) + dc0).toNat) (rs (clearWallDir st row col dr0 dc0).k)
        { hw := (clearWallDir st row col dr0 dc0).hw,
          vw := (clearWallDir st row col dr0 dc0).vw,
          visited := insert ((((row : ℤ) + dr0).toNat, ((col : ℤ) + dc0).toNat))
            (clearWallDir st row col dr0 dc0).visited,
          k := (clearWallDir st row col dr0 dc0).k + 1 }).val.visited
    · by_cases hpn : p = ((((row : ℤ) + dr0).toNat, ((col : ℤ) + dc0).toNat))
      · -- `p` is the neighbour just carved into: its direction list is a
        -- full shuffle, so `carveGo_processed` covers all four moves
        subst hpn
        obtain ⟨d, hd, hc1, hc2, hc3, hc4, rfl⟩ :=
          (gridAdj_iff_dir hq.1 hq.2.1).mp hq
        refine carveGo_mono N rs _ _ _ _ ?_
        refine carveGo_processed N rs _ _ _ _ d.1 d.2 ?_ hc1 hc2 hc3 hc4
        exact ((hrs _).mem_iff).mpr hd
      · -- `p` was first visited inside the recursive call
        have hpnot2 : p ∉ insert ((((row : ℤ) + dr0).toNat,
            ((col : ℤ) + dc0).toNat)) (clearWallDir st row col dr0 dc0).visited := by
          rw [Finset.mem_insert, clearWallDir_visited]
          push_neg
          exact ⟨hpn, hpnot⟩
        exact carveGo_mono N rs _ _ _ _ (ihB p hp1 hpnot2 q hq)
    · -- `p` was first visited while processing the remaining directions
      exact ihD p hp hp1 q hq
  | case3 row col dr0 dc0 rest st hval ih =>
    intro p hp hpnot q hq
    rw [carveGo_cons_neg N rs row col dr0 dc0 rest st hval] at hp ⊢
    exact ih p hp hpnot q hq

/-- Any valid cell can walk (ignoring walls) to `(0, 0)`. -/
theorem gridAdj_to_zero (N : ℕ) :
    ∀ (n : ℕ) (p : ℕ × ℕ), p.1 + p.2 ≤ n → p.1 < N → p.2 < N →
    Relation.ReflTransGen (gridAdj N) p (0, 0) := by
  intro n
  induction n with
  | zero =>
    intro p hsum h1 h2
    have hp : p = (0, 0) := Prod.ext (by omega) (by omega)
    rw [hp]
  | succ n ih =>
    intro p hsum h1 h2
    by_cases hc : 0 < p.2
    · refine Relation.ReflTransGen.head (b := (p.1, p.2 - 1)) ?_
        (ih (p.1, p.2 - 1) (by simp; omega) h1 (by simp; omega))
      exact ⟨h1, h2, by simp; try omega, by simp; omega,
        Or.inr (Or.inr (Or.inr ⟨by simp; omega, by simp⟩))⟩
    · by_cases hr : 0 < p.1
      · refine Relation.ReflTransGen.head (b := (p.1 - 1, p.2)) ?_
          (ih (p.1 - 1, p.2) (by simp; omega) (by simp; omega) h2)
        exact ⟨h1, h2, by simp; omega, by simp; try omega,
          Or.inr (Or.inl ⟨by simp; omega, by simp⟩)⟩
      · have hp : p = (0, 0) := Prod.ext (by omega) (by omega)
        rw [hp]

/-- Any two valid cells are joined by a wall-ignoring grid walk. -/
theorem gridAdj_connects (N : ℕ) {a b : ℕ × ℕ}
    (ha1 : a.1 < N) (ha2 : a.2 < N) (hb1 : b.1 < N) (hb2 : b.2 < N) :
    Relation.ReflTransGen (gridAdj N) a b := by
  refine Relation.ReflTransGen.trans
    (gridAdj_to_zero N (a.1 + a.2) a le_rfl ha1 ha2) ?_
  exact (Relation.ReflTransGen.symmetric fun x y h => gridAdj_symm h)
    (gridAdj_to_zero N (b.1 + b.2) b le_rfl hb1 hb2)

/-- A set closed under grid adjacency absorbs grid walks. -/
theorem closed_absorbs {N : ℕ} {V : Finset (ℕ × ℕ)}
    (hclosed : ∀ p ∈ V, ∀ q, gridAdj N p q → q ∈ V) {a b : ℕ × ℕ}
    (hr : Relation.ReflTransGen (gridAdj N) a b) (ha : a ∈ V) : b ∈ V := by
  induction hr with
  | refl => exact ha
  | tail hab hbc ih => exact hclosed _ ih _ hbc

/-- The carver invariant holds for the completed DFS from any valid start. -/
theorem dfsCarveFrom_inv (N : ℕ) (rs : ℕ → List (ℤ × ℤ)) (sr sc : ℕ)
    (hrs : IsShuffleSeq rs) (hsr : sr < N) (hsc : sc < N) :
    CarveInv N (sr, sc) (dfsCarveFrom N rs sr sc) := by
  unfold dfsCarveFrom
  exact carveGo_inv N rs (sr, sc) hrs sr sc (rs 0) _
    (Finset.mem_singleton_self _) (fun d hd => ((hrs 0).mem_iff).mp hd)
    (carveInv_init N sr sc hsr hsc)

/-- The visited set of the completed DFS is closed under grid adjacency. -/
theorem dfsCarveFrom_closed (N : ℕ) (rs : ℕ → List (ℤ × ℤ)) (sr sc : ℕ)
    (hrs : IsShuffleSeq rs) :
    ∀ p ∈ (dfsCarveFrom N rs sr sc).visited, ∀ q, gridAdj N p q →
      q ∈ (dfsCarveFrom N rs sr sc).visited := by
  intro p hp q hq
  by_cases hps : p = (sr, sc)
  · subst hps
    obtain ⟨d, hd, hc1, hc2, hc3, hc4, rfl⟩ :=
      (gridAdj_iff_dir hq.1 hq.2.1).mp hq
    unfold dfsCarveFrom
    exact carveGo_processed N rs sr sc (rs 0) _ d.1 d.2
      (((hrs 0).mem_iff).mpr hd) hc1 hc2 hc3 hc4
  · unfold dfsCarveFrom at hp ⊢
    refine carveGo_newClosed N rs hrs sr sc (rs 0) _ p hp ?_ q hq
    show p ∉ ({(sr, sc)} : Finset (ℕ × ℕ))
    simp only [Finset.mem_singleton]
    exact hps

/-- The DFS visits every cell of the grid. -/
theorem dfsCarveFrom_visits_all (N : ℕ) (rs : ℕ → List (ℤ × ℤ)) (sr sc : ℕ)
    (hrs : IsShuffleSeq rs) (hsr : sr < N) (hsc : sc < N) :
    (dfsCarveFrom N rs sr sc).visited = validCells N := by
  apply Finset.Subset.antisymm
  · intro p hp
    rw [mem_validCells]
    exact (dfsCarveFrom_inv N rs sr sc hrs hsr hsc).visValid p hp
  · intro p hp
    rw [mem_validCells] at hp
    exact closed_absorbs (dfsCarveFrom_closed N rs sr sc hrs)
      (gridAdj_connects N hsr hsc hp.1 hp.2)
      (dfsCarveFrom_inv N rs sr sc hrs hsr hsc).startMem

/-- After carving: the present interior wall count is `(N−1)²`. -/
theorem carved_countInner (N : ℕ) (rs : ℕ → List (ℤ × ℤ)) (sr sc : ℕ)
    (hrs : IsShuffleSeq rs) (hsr : sr < N) (hsc : sc < N) :
    countInnerWalls N (carvedWalls N rs sr sc).hw (carvedWalls N rs sr sc).vw =
      (N - 1) * (N - 1) := by
  have hcount := (dfsCarveFrom_inv N rs sr sc hrs hsr hsc).count
  have hall := dfsCarveFrom_visits_all N rs sr sc hrs hsr hsc
  rw [hall, card_validCells] at hcount
  obtain ⟨M, rfl⟩ : ∃ M, N = M + 1 := ⟨N - 1, by omega⟩
  have hsq : (M + 1 - 1) * (M + 1 - 1) + (M + 1) * (M + 1) =
      2 * (M + 1) * (M + 1 - 1) + 1 := by
    simp only [Nat.add_sub_cancel]
    ring
  show countInnerWalls (M + 1) (dfsCarveFrom (M + 1) rs sr sc).hw
    (dfsCarveFrom (M + 1) rs sr sc).vw = (M + 1 - 1) * (M + 1 - 1)
  omega

/-- After carving: exactly `N² − 1` interior wall entries are cleared. -/
theorem carved_cleared (N : ℕ) (rs : ℕ → List (ℤ × ℤ)) (sr sc : ℕ)
    (hrs : IsShuffleSeq rs) (hsr : sr < N) (hsc : sc < N) :
    clearedInnerWalls N (carvedWalls N rs sr sc).hw (carvedWalls N rs sr sc).vw =
      N * N - 1 := by
  have h1 := carved_countInner N rs sr sc hrs hsr hsc
  have h2 := countInnerWalls_add_cleared N (carvedWalls N rs sr sc).hw
    (carvedWalls N rs sr sc).vw
  obtain ⟨M, rfl⟩ : ∃ M, N = M + 1 := ⟨N - 1, by omega⟩
  have hsq : (M + 1 - 1) * (M + 1 - 1) + ((M + 1) * (M + 1) - 1) =
      2 * (M + 1) * (M + 1 - 1) := by
    simp only [Nat.add_sub_cancel]
    have hle : 1 ≤ (M + 1) * (M + 1) := Nat.one_le_iff_ne_zero.mpr (by positivity)
    have hexp : (M + 1) * (M + 1) = M * M + 2 * M + 1 := by ring
    rw [hexp]
    ring_nf
    omega
  omega

/-- After carving: `k` (the number of `_dfs_carve` invocations, one per
visited cell and per consumed shuffle) equals `N²`. -/
theorem carved_k (N : ℕ) (rs : ℕ → List (ℤ × ℤ)) (sr sc : ℕ)
    (hrs : IsShuffleSeq rs) (hsr : sr < N) (hsc : sc < N) :
    (dfsCarveFrom N rs sr sc).k = N * N := by
  have hk := (dfsCarveFrom_inv N rs sr sc hrs hsr hsc).kCount
  rw [dfsCarveFrom_visits_all N rs sr sc hrs hsr hsc, card_validCells] at hk
  exact hk

/-- After carving, the connectivity checker reports full connectivity. -/
theorem carved_connected (N : ℕ) (rs : ℕ → List (ℤ × ℤ)) (sr sc : ℕ)
    (hrs : IsShuffleSeq rs) (hN : 0 < N) (hsr : sr < N) (hsc : sc < N) :
    isAllConnected N (carvedWalls N rs sr sc).hw (carvedWalls N rs sr sc).vw =
      true := by
  refine isAllConnected_of_reaches N _ _ hN ?_
  intro x hx1 hx2
  have hinv := dfsCarveFrom_inv N rs sr sc hrs hsr hsc
  have hall := dfsCarveFrom_visits_all N rs sr sc hrs hsr hsc
  have hreach : ∀ y : ℕ × ℕ, y.1 < N → y.2 < N →
      Relation.ReflTransGen
        (adjOpen N (carvedWalls N rs sr sc).hw (carvedWalls N rs sr sc).vw)
        (sr, sc) y := by
    intro y hy1 hy2
    exact hinv.reach y (by rw [hall, mem_validCells]; exact ⟨hy1, hy2⟩)
  refine Relation.ReflTransGen.trans ?_ (hreach x hx1 hx2)
  exact (Relation.ReflTransGen.symmetric fun a b h => adjOpen_symm h)
    (hreach (0, 0) hN hN)

/-! ## The wall densifier `_add_additional_walls` -/

/-- The tag `'h'` / `'v'` of a candidate path. -/
inductive WallKind where
  | horiz : WallKind
  | vert : WallKind
deriving DecidableEq

/-- A candidate entry `(path_type, row, col)` of `removable_paths`. -/
abbrev Cand : Type := WallKind × ℕ × ℕ

/-- Read one wall entry by kind. -/
def getWall (w : Walls) : Cand → Bool
  | (WallKind.horiz, r, c) => w.hw r c
  | (WallKind.vert, r, c) => w.vw r c

/-- Write one wall entry by kind. -/
def setWall (w : Walls) (k : WallKind) (r c : ℕ) (v : Bool) : Walls :=
  match k with
  | WallKind.horiz => { w with hw := set2 w.hw r c v }
  | WallKind.vert => { w with vw := set2 w.vw r c v }

/-- The list `removable_paths`: all currently-open interior wall positions,
horizontal entries first (`range(1, N) × range(N)`), then vertical entries
(`range(N) × range(1, N)`), in loop order. -/
def removablePaths (N : ℕ) (w : Walls) : List Cand :=
  ((List.range' 1 (N - 1)).flatMap fun row =>
    (List.range N).filterMap fun col =>
      if w.hw row col = false then some (WallKind.horiz, row, col) else none)
  ++ ((List.range N).flatMap fun row =>
    (List.range' 1 (N - 1)).filterMap fun col =>
      if w.vw row col = false then some (WallKind.vert, row, col) else none)

/-- The candidate loop of `_add_additional_walls`: for each candidate (until
`added ≥ num_walls_to_add`), tentatively add the wall; keep it if the grid
stays fully connected, otherwise write `False` back.  Returns the final wall
state and the number of walls added. -/
def addLoop (N : ℕ) (numToAdd : ℕ) : List Cand → Walls → ℕ → Walls × ℕ
  | [], w, added => (w, added)
  | (k, r, c) :: rest, w, added =>
    if numToAdd ≤ added then (w, added)
    else
      let w1 := setWall w k r c true
      if isAllConnected N w1.hw w1.vw then addLoop N numToAdd rest w1 (added + 1)
      else addLoop N numToAdd rest (setWall w1 k r c false) added

/-- The densifier `_add_additional_walls(num_walls_to_add)` with the shuffle modelled as a
caller-supplied permutation `shuffleC` of the candidate list. -/
def addAdditionalWalls (N : ℕ) (numToAdd : ℕ)
    (shuffleC : List Cand → List Cand) (w : Walls) : Walls × ℕ :=
  addLoop N numToAdd (shuffleC (removablePaths N w)) w 0

/-- The wall state at the end of `generate_maze`, before projection:
carve, then densify only when the carved interior wall count is below
`min_walls` (step 3 of `generate_maze`). -/
def finalWalls (N : ℕ) (minWalls : ℤ) (rs : ℕ → List (ℤ × ℤ)) (sr sc : ℕ)
    (shuffleC : List Cand → List Cand) : Walls :=
  let w := carvedWalls N rs sr sc
  let current := countInnerWalls N w.hw w.vw
  if (current : ℤ) < minWalls then
    (addAdditionalWalls N (minWalls - current).toNat shuffleC w).1
  else w

/-- The number of walls the densifier reports as added (0 when it never
runs). -/
def addedWalls (N : ℕ) (minWalls : ℤ) (rs : ℕ → List (ℤ × ℤ)) (sr sc : ℕ)
    (shuffleC : List Cand → List Cand) : ℕ :=
  let w := carvedWalls N rs sr sc
  let current := countInnerWalls N w.hw w.vw
  if (current : ℤ) < minWalls then
    (addAdditionalWalls N (minWalls - current).toNat shuffleC w).2
  else 0

/-- A candidate names an interior wall position. -/
def CandInterior (N : ℕ) : Cand → Prop
  | (WallKind.horiz, r, c) => 1 ≤ r ∧ r < N ∧ c < N
  | (WallKind.vert, r, c) => r < N ∧ 1 ≤ c ∧ c < N

theorem getWall_setWall_same (w : Walls) (k : WallKind) (r c : ℕ) (v : Bool) :
    getWall (setWall w k r c v) (k, r, c) = v := by
  cases k
  · show set2 w.hw r c v r c = v
    exact set2_same _ _ _ _
  · show set2 w.vw r c v r c = v
    exact set2_same _ _ _ _

theorem getWall_setWall_other (w : Walls) (k : WallKind) (r c : ℕ) (v : Bool)
    {x : Cand} (hx : x ≠ (k, r, c)) :
    getWall (setWall w k r c v) x = getWall w x := by
  obtain ⟨kx, rx, cx⟩ := x
  cases k <;> cases kx
  · show set2 w.hw r c v rx cx = w.hw rx cx
    refine set2_other _ _ ?_
    intro ⟨h1, h2⟩
    exact hx (by rw [h1, h2])
  · show w.vw rx cx = w.vw rx cx
    rfl
  · show w.hw rx cx = w.hw rx cx
    rfl
  · show set2 w.vw r c v rx cx = w.vw rx cx
    refine set2_other _ _ ?_
    intro ⟨h1, h2⟩
    exact hx (by rw [h1, h2])

theorem set2_cancel (f : ℕ → ℕ → Bool) (i j : ℕ) (v v' : Bool)
    (hv : f i j = v') : set2 (set2 f i j v) i j v' = f := by
  funext a b
  by_cases h : a = i ∧ b = j
  · obtain ⟨rfl, rfl⟩ := h
    rw [set2_same, hv]
  · rw [set2_other _ _ h, set2_other _ _ h]

/-- Reverting a tentative addition restores the wall state exactly, because
the candidate's entry was open before the trial. -/
theorem setWall_revert (w : Walls) (k : WallKind) (r c : ℕ)
    (hopen : getWall w (k, r, c) = false) :
    setWall (setWall w k r c true) k r c false = w := by
  cases k
  · show ({ w with hw := set2 (set2 w.hw r c true) r c false } : Walls) = w
    have hcancel : set2 (set2 w.hw r c true) r c false = w.hw :=
      set2_cancel w.hw r c true false hopen
    rw [hcancel]
  · show ({ w with vw := set2 (set2 w.vw r c true) r c false } : Walls) = w
    have hcancel : set2 (set2 w.vw r c true) r c false = w.vw :=
      set2_cancel w.vw r c true false hopen
    rw [hcancel]

/-- Adding an open interior wall raises the interior wall count by one. -/
theorem countInner_setWall_true (N : ℕ) (w : Walls) (k : WallKind) (r c : ℕ)
    (hint : CandInterior N (k, r, c)) (hopen : getWall w (k, r, c) = false) :
    countInnerWalls N (setWall w k r c true).hw (setWall w k r c true).vw =
      countInnerWalls N w.hw w.vw + 1 := by
  cases k
  · have hmem : (r, c) ∈ innerH N := by
      simp only [innerH, Finset.mem_product, Finset.mem_Ico, Finset.mem_range]
      exact ⟨⟨hint.1, hint.2.1⟩, hint.2.2⟩
    have hnot : (r, c) ∉ (innerH N).filter fun p => w.hw p.1 p.2 = true := by
      simp only [Finset.mem_filter, not_and]
      intro _
      rw [show w.hw r c = false from hopen]
      simp
    show ((innerH N).filter fun p => set2 w.hw r c true p.1 p.2 = true).card +
      ((innerV N).filter fun p => w.vw p.1 p.2 = true).card =
      countInnerWalls N w.hw w.vw + 1
    rw [filter_set2_true _ _ _ _ hmem, Finset.card_insert_of_not_mem hnot]
    unfold countInnerWalls
    omega
  · have hmem : (r, c) ∈ innerV N := by
      simp only [innerV, Finset.mem_product, Finset.mem_Ico, Finset.mem_range]
      exact ⟨hint.1, hint.2.1, hint.2.2⟩
    have hnot : (r, c) ∉ (innerV N).filter fun p => w.vw p.1 p.2 = true := by
      simp only [Finset.mem_filter, not_and]
      intro _
      rw [show w.vw r c = false from hopen]
      simp
    show ((innerH N).filter fun p => w.hw p.1 p.2 = true).card +
      ((innerV N).filter fun p => set2 w.vw r c true p.1 p.2 = true).card =
      countInnerWalls N w.hw w.vw + 1
    rw [filter_set2_true _ _ _ _ hmem, Finset.card_insert_of_not_mem hnot]
    unfold countInnerWalls
    omega

/-- Writing an interior wall entry never touches the boundary rings. -/
theorem boundary_setWall (N : ℕ) (w : Walls) (k : WallKind) (r c : ℕ)
    (v : Bool) (hint : CandInterior N (k, r, c))
    (hb : BoundaryTrue N w.hw w.vw) :
    BoundaryTrue N (setWall w k r c v).hw (setWall w k r c v).vw := by
  cases k
  · refine ⟨fun c' hc' => ⟨?_, ?_⟩, hb.2⟩
    · show set2 w.hw r c v 0 c' = true
      rw [set2_other _ _ (by
        rintro ⟨h1, -⟩
        have := hint.1
        omega)]
      exact (hb.1 c' hc').1
    · show set2 w.hw r c v N c' = true
      rw [set2_other _ _ (by
        rintro ⟨h1, -⟩
        have := hint.2.1
        omega)]
      exact (hb.1 c' hc').2
  · refine ⟨hb.1, fun r' hr' => ⟨?_, ?_⟩⟩
    · show set2 w.vw r c v r' 0 = true
      rw [set2_other _ _ (by
        rintro ⟨-, h2⟩
        have := hint.2.1
        omega)]
      exact (hb.2 r' hr').1
    · show set2 w.vw r c v r' N = true
      rw [set2_other _ _ (by
        rintro ⟨-, h2⟩
        have := hint.2.2
        omega)]
      exact (hb.2 r' hr').2

/-! ### Properties of `removable_paths` -/

theorem removablePaths_open {N : ℕ} {w : Walls} {x : Cand}
    (hx : x ∈ removablePaths N w) : getWall w x = false := by
  simp only [removablePaths, List.mem_append, List.mem_flatMap,
    List.mem_filterMap] at hx
  rcases hx with ⟨r, hr, c, hc, hx⟩ | ⟨r, hr, c, hc, hx⟩
  · split at hx
    · rename_i hcond
      obtain rfl : (WallKind.horiz, r, c) = x := Option.some.inj hx
      exact hcond
    · exact absurd hx (by simp)
  · split at hx
    · rename_i hcond
      obtain rfl : (WallKind.vert, r, c) = x := Option.some.inj hx
      exact hcond
    · exact absurd hx (by simp)

theorem removablePaths_interior {N : ℕ} {w : Walls} {x : Cand}
    (hx : x ∈ removablePaths N w) : CandInterior N x := by
  simp only [removablePaths, List.mem_append, List.mem_flatMap,
    List.mem_filterMap, List.mem_range, List.mem_range'_1] at hx
  rcases hx with ⟨r, hr, c, hc, hx⟩ | ⟨r, hr, c, hc, hx⟩
  · split at hx
    · obtain rfl : (WallKind.horiz, r, c) = x := Option.some.inj hx
      exact ⟨hr.1, by omega, hc⟩
    · exact absurd hx (by simp)
  · split at hx
    · obtain rfl : (WallKind.vert, r, c) = x := Option.some.inj hx
      exact ⟨hr, hc.1, by omega⟩
    · exact absurd hx (by simp)

theorem removablePaths_nodup (N : ℕ) (w : Walls) :
    (removablePaths N w).Nodup := by
  refine List.Nodup.append ?_ ?_ ?_
  · rw [List.nodup_flatMap]
    constructor
    · intro r _
      refine List.Nodup.filterMap ?_ (List.nodup_range N)
      intro a b x hax hbx
      have ha : x = (WallKind.horiz, r, a) := by
        by_cases hcond : w.hw r a = false
        · simp only [if_pos hcond, Option.mem_def, Option.some.injEq] at hax
          exact hax.symm
        · simp [if_neg hcond] at hax
      have hb : x = (WallKind.horiz, r, b) := by
        by_cases hcond : w.hw r b = false
        · simp only [if_pos hcond, Option.mem_def, Option.some.injEq] at hbx
          exact hbx.symm
        · simp [if_neg hcond] at hbx
      rw [ha] at hb
      exact (congrArg (fun p => p.2.2) hb)
    · refine List.Pairwise.imp ?_ (List.nodup_range' (s := 1) (n := N - 1))
      intro r r' hne
      intro x hx hx'
      simp only [List.mem_filterMap] at hx hx'
      obtain ⟨c, -, hc⟩ := hx
      obtain ⟨c', -, hc'⟩ := hx'
      have h1 : x.2.1 = r := by
        split at hc
        · obtain rfl := Option.some.inj hc
          rfl
        · exact absurd hc (by simp)
      have h2 : x.2.1 = r' := by
        split at hc'
        · obtain rfl := Option.some.inj hc'
          rfl
        · exact absurd hc' (by simp)
      exact hne (h1 ▸ h2)
  · rw [List.nodup_flatMap]
    constructor
    · intro r _
      refine List.Nodup.filterMap ?_ (List.nodup_range' (s := 1) (n := N - 1))
      intro a b x hax hbx
      have ha : x = (WallKind.vert, r, a) := by
        by_cases hcond : w.vw r a = false
        · simp only [if_pos hcond, Option.mem_def, Option.some.injEq] at hax
          exact hax.symm
        · simp [if_neg hcond] at hax
      have hb : x = (WallKind.vert, r, b) := by
        by_cases hcond : w.vw r b = false
        · simp only [if_pos hcond, Option.mem_def, Option.some.injEq] at hbx
          exact hbx.symm
        · simp [if_neg hcond] at hbx
      rw [ha] at hb
      exact (congrArg (fun p => p.2.2) hb)
    · refine List.Pairwise.imp ?_ (List.nodup_range N)
      intro r r' hne
      intro x hx hx'
      simp only [List.mem_filterMap] at hx hx'
      obtain ⟨c, -, hc⟩ := hx
      obtain ⟨c', -, hc'⟩ := hx'
      have h1 : x.2.1 = r := by
        split at hc
        · obtain rfl := Option.some.inj hc
          rfl
        · exact absurd hc (by simp)
      have h2 : x.2.1 = r' := by
        split at hc'
        · obtain rfl := Option.some.inj hc'
          rfl
        · exact absurd hc' (by simp)
      exact hne (h1 ▸ h2)
  · -- horizontal tags never equal vertical tags
    intro x hx hx'
    simp only [List.mem_flatMap, List.mem_filterMap] at hx hx'
    obtain ⟨r, -, c, -, hc⟩ := hx
    obtain ⟨r', -, c', -, hc'⟩ := hx'
    have h1 : x.1 = WallKind.horiz := by
      split at hc
      · obtain rfl := Option.some.inj hc
        rfl
      · exact absurd hc (by simp)
    have h2 : x.1 = WallKind.vert := by
      split at hc'
      · obtain rfl := Option.some.inj hc'
        rfl
      · exact absurd hc' (by simp)
    rw [h1] at h2
    exact WallKind.noConfusion h2

/-! ### Behaviour of the candidate loop -/

/-- Once the target is met, the loop breaks immediately: no further
candidate changes the state. -/
theorem addLoop_saturated (N num : ℕ) :
    ∀ (l : List Cand) (w : Walls) (a : ℕ), num ≤ a →
    addLoop N num l w a = (w, a) := by
  intro l
  cases l with
  | nil => intro w a _; rfl
  | cons x rest =>
    intro w a ha
    obtain ⟨k, r, c⟩ := x
    show (if num ≤ a then (w, a) else _) = (w, a)
    rw [if_pos ha]

/-- Processing a concatenated candidate list equals processing the first
part and then the second from the resulting state. -/
theorem addLoop_append (N num : ℕ) :
    ∀ (l₁ l₂ : List Cand) (w : Walls) (a : ℕ),
    addLoop N num (l₁ ++ l₂) w a =
      addLoop N num l₂ (addLoop N num l₁ w a).1 (addLoop N num l₁ w a).2 := by
  intro l₁
  induction l₁ with
  | nil => intro l₂ w a; rfl
  | cons x rest ih =>
    intro l₂ w a
    obtain ⟨k, r, c⟩ := x
    by_cases ha : num ≤ a
    · rw [List.cons_append,
        addLoop_saturated N num ((k, r, c) :: (rest ++ l₂)) w a ha,
        addLoop_saturated N num ((k, r, c) :: rest) w a ha,
        addLoop_saturated N num l₂ w a ha]
    · have hstep : ∀ l', addLoop N num ((k, r, c) :: l') w a =
          if isAllConnected N (setWall w k r c true).hw
              (setWall w k r c true).vw
          then addLoop N num l' (setWall w k r c true) (a + 1)
          else addLoop N num l' (setWall (setWall w k r c true) k r c false) a := by
        intro l'
        show (if num ≤ a then (w, a) else _) = _
        rw [if_neg ha]
      rw [List.cons_append, hstep (rest ++ l₂), hstep rest]
      by_cases hconn : isAllConnected N (setWall w k r c true).hw
          (setWall w k r c true).vw = true
      · rw [if_pos hconn, if_pos hconn, ih]
      · rw [if_neg hconn, if_neg hconn, ih]

/-- One unfolding of the loop body while the target is not yet met. -/
theorem addLoop_cons_lt (N num : ℕ) (k : WallKind) (r c : ℕ) (l : List Cand)
    (w : Walls) (a : ℕ) (ha : ¬num ≤ a) :
    addLoop N num ((k, r, c) :: l) w a =
      if isAllConnected N (setWall w k r c true).hw (setWall w k r c true).vw
      then addLoop N num l (setWall w k r c true) (a + 1)
      else addLoop N num l (setWall (setWall w k r c true) k r c false) a := by
  show (if num ≤ a then (w, a) else _) = _
  rw [if_neg ha]

/-- Main loop invariant of `_add_additional_walls`: starting from a
connected state and a duplicate-free list of open interior candidates, the
loop keeps the state connected, raises the interior wall count by exactly
the number of accepted candidates, never removes a wall, and never exceeds
the requested target or touches the boundary. -/
theorem addLoop_spec (N num : ℕ) :
    ∀ (l : List Cand) (w : Walls) (a : ℕ),
    isAllConnected N w.hw w.vw = true →
    (∀ x ∈ l, getWall w x = false) →
    l.Nodup →
    (∀ x ∈ l, CandInterior N x) →
    isAllConnected N (addLoop N num l w a).1.hw (addLoop N num l w a).1.vw
        = true ∧
    countInnerWalls N (addLoop N num l w a).1.hw (addLoop N num l w a).1.vw
        + a = countInnerWalls N w.hw w.vw + (addLoop N num l w a).2 ∧
    a ≤ (addLoop N num l w a).2 ∧
    (addLoop N num l w a).2 ≤ max a num ∧
    (BoundaryTrue N w.hw w.vw →
      BoundaryTrue N (addLoop N num l w a).1.hw (addLoop N num l w a).1.vw) := by
  intro l
  induction l with
  | nil =>
    intro w a hconn _ _ _
    exact ⟨hconn, rfl, le_refl a, le_max_left a num, fun hb => hb⟩
  | cons x rest ih =>
    intro w a hconn hopen hnodup hint
    obtain ⟨k, r, c⟩ := x
    by_cases ha : num ≤ a
    · rw [addLoop_saturated N num _ w a ha]
      exact ⟨hconn, rfl, le_refl a, le_max_left a num, fun hb => hb⟩
    · rw [addLoop_cons_lt N num k r c rest w a ha]
      have hopenHead : getWall w (k, r, c) = false :=
        hopen _ (List.mem_cons_self _ _)
      have hintHead : CandInterior N (k, r, c) :=
        hint _ (List.mem_cons_self _ _)
      have hheadNotRest : (k, r, c) ∉ rest := (List.nodup_cons.mp hnodup).1
      have hnodupRest : rest.Nodup := (List.nodup_cons.mp hnodup).2
      have hintRest : ∀ y ∈ rest, CandInterior N y :=
        fun y hy => hint y (List.mem_cons_of_mem _ hy)
      by_cases hc : isAllConnected N (setWall w k r c true).hw
          (setWall w k r c true).vw = true
      · rw [if_pos hc]
        have hopenRest : ∀ y ∈ rest, getWall (setWall w k r c true) y = false := by
          intro y hy
          have hne : y ≠ (k, r, c) := by
            intro heq
            exact hheadNotRest (heq ▸ hy)
          rw [getWall_setWall_other w k r c true hne]
          exact hopen y (List.mem_cons_of_mem _ hy)
        have hcount1 := countInner_setWall_true N w k r c hintHead hopenHead
        obtain ⟨c1, c2, c3, c4, c5⟩ :=
          ih (setWall w k r c true) (a + 1) hc hopenRest hnodupRest hintRest
        refine ⟨c1, ?_, ?_, ?_, ?_⟩
        · rw [hcount1] at c2
          omega
        · omega
        · have hmax : max (a + 1) num = num := Nat.max_eq_right (by omega)
          rw [hmax] at c4
          exact le_trans c4 (le_max_right a num)
        · intro hb
          exact c5 (boundary_setWall N w k r c true hintHead hb)
      · rw [if_neg hc, setWall_revert w k r c hopenHead]
        exact ih w a hconn
          (fun y hy => hopen y (List.mem_cons_of_mem _ hy)) hnodupRest hintRest

/-- Atomicity of a single candidate step (claim C5): with the target not
yet met and the candidate's entry open, processing the candidate either
keeps the wall with the grid still fully connected and counts it, or leaves
the entire wall state exactly as it was, with the count unchanged. -/
theorem addLoop_single_atomic (N num : ℕ) (k : WallKind) (r c : ℕ)
    (w : Walls) (a : ℕ) (ha : a < num) (hopen : getWall w (k, r, c) = false) :
    (getWall (addLoop N num [(k, r, c)] w a).1 (k, r, c) = true ∧
      isAllConnected N (addLoop N num [(k, r, c)] w a).1.hw
        (addLoop N num [(k, r, c)] w a).1.vw = true ∧
      (addLoop N num [(k, r, c)] w a).2 = a + 1) ∨
    ((addLoop N num [(k, r, c)] w a).1 = w ∧
      (addLoop N num [(k, r, c)] w a).2 = a) := by
  rw [addLoop_cons_lt N num k r c [] w a (by omega)]
  by_cases hc : isAllConnected N (setWall w k r c true).hw
      (setWall w k r c true).vw = true
  · rw [if_pos hc]
    left
    exact ⟨getWall_setWall_same w k r c true, hc, rfl⟩
  · rw [if_neg hc, setWall_revert w k r c hopen]
    right
    exact ⟨rfl, rfl⟩

/-! ## The geometry projector `_convert_to_3d_walls` / `_create_wall`

Python floats are modelled exactly over `ℚ` (`0.5` and `0.05` are the
constants `self.wall_height` and `self.wall_thickness`). -/

/-- The constant `self.wall_height = 0.5`. -/
def wallHeight : ℚ := 1 / 2

/-- The constant `self.wall_thickness = 0.05`. -/
def wallThickness : ℚ := 1 / 20

inductive Orientation where
  | horizontal : Orientation
  | vertical : Orientation
deriving DecidableEq

/-- A wall descriptor as built by `_create_wall`. -/
structure Wall where
  x : ℚ
  y : ℚ
  z : ℚ
  length : ℚ
  width : ℚ
  height : ℚ
  yaw : ℚ
deriving DecidableEq

/-- The embedding of `MazeGenerator._create_wall`. -/
def createWall (cellSize x y z : ℚ) : Orientation → Wall
  | Orientation.horizontal =>
    { x := x, y := y, z := z + wallHeight / 2, length := cellSize,
      width := wallThickness, height := wallHeight, yaw := 0 }
  | Orientation.vertical =>
    { x := x, y := y, z := z + wallHeight / 2, length := wallThickness,
      width := cellSize, height := wallHeight, yaw := 0 }

/-- The embedding of `MazeGenerator._convert_to_3d_walls`: horizontal walls
in row-major loop order, then vertical walls in row-major loop order. -/
def convertTo3dWalls (N : ℕ) (cellSize : ℚ) (w : Walls) : List Wall :=
  ((List.range (N + 1)).flatMap fun row =>
    (List.range N).filterMap fun col =>
      if w.hw row col = true then
        some (createWall cellSize
          (-((N : ℚ) * cellSize / 2) + ((col : ℚ) + 1 / 2) * cellSize)
          (-((N : ℚ) * cellSize / 2) + (row : ℚ) * cellSize) 0
          Orientation.horizontal)
      else none)
  ++ ((List.range N).flatMap fun row =>
    (List.range (N + 1)).filterMap fun col =>
      if w.vw row col = true then
        some (createWall cellSize
          (-((N : ℚ) * cellSize / 2) + (col : ℚ) * cellSize)
          (-((N : ℚ) * cellSize / 2) + ((row : ℚ) + 1 / 2) * cellSize) 0
          Orientation.vertical)
      else none)

/-- The embedding of `MazeGenerator.generate_maze`: carve, densify when the
carved interior count is below `min_walls`, project. -/
def generateMaze (N : ℕ) (cellSize : ℚ) (minWalls : ℤ)
    (rs : ℕ → List (ℤ × ℤ)) (sr sc : ℕ)
    (shuffleC : List Cand → List Cand) : List Wall :=
  convertTo3dWalls N cellSize (finalWalls N minWalls rs sr sc shuffleC)

/-! ### Projector membership and ordering lemmas -/

theorem filterMap_ite {α β : Type} (l : List α) (p : α → Bool) (f : α → β) :
    (l.filterMap fun a => if p a then some (f a) else none) =
      (l.filter p).map f := by
  induction l with
  | nil => rfl
  | cons a t ih =>
    by_cases hp : p a
    · simp [List.filterMap_cons, List.filter_cons, hp, ih]
    · simp [List.filterMap_cons, List.filter_cons, hp, ih]

/-- The row-major list of index pairs produced by two nested loops. -/
def rowColPairs (rows cols : List ℕ) : List (ℕ × ℕ) :=
  rows.flatMap fun r => cols.map fun c => (r, c)

theorem mem_rowColPairs {rows cols : List ℕ} {p : ℕ × ℕ} :
    p ∈ rowColPairs rows cols ↔ p.1 ∈ rows ∧ p.2 ∈ cols := by
  simp only [rowColPairs, List.mem_flatMap, List.mem_map]
  constructor
  · rintro ⟨r, hr, c, hc, rfl⟩
    exact ⟨hr, hc⟩
  · intro ⟨h1, h2⟩
    exact ⟨p.1, h1, p.2, h2, rfl⟩

/-- Row-major (lexicographic) order on index pairs. -/
def rowMajorLT (a b : ℕ × ℕ) : Prop :=
  a.1 < b.1 ∨ (a.1 = b.1 ∧ a.2 < b.2)

theorem rowColPairs_pairwise (rows cols : List ℕ)
    (hrows : rows.Pairwise (· < ·)) (hcols : cols.Pairwise (· < ·)) :
    (rowColPairs rows cols).Pairwise rowMajorLT := by
  induction rows with
  | nil => exact List.Pairwise.nil
  | cons r t ih =>
    rw [rowColPairs, List.flatMap_cons]
    refine List.pairwise_append.mpr ⟨?_, ?_, ?_⟩
    · refine List.pairwise_map.mpr ?_
      refine hcols.imp ?_
      intro a b hab
      exact Or.inr ⟨rfl, hab⟩
    · exact ih (List.pairwise_cons.mp hrows).2
    · intro x hx y hy
      obtain ⟨c, -, rfl⟩ := List.mem_map.mp hx
      rw [show (t.flatMap fun r' => cols.map fun c' => (r', c')) =
        rowColPairs t cols from rfl] at hy
      have hy' := mem_rowColPairs.mp hy
      have hrt : r < y.1 :=
        (List.pairwise_cons.mp hrows).1 y.1 hy'.1
      exact Or.inl hrt

theorem rowMajorLT_ne {a b : ℕ × ℕ} (h : rowMajorLT a b) : a ≠ b := by
  intro heq
  subst heq
  rcases h with h | ⟨-, h⟩
  · omega
  · omega

theorem rowColPairs_nodup (rows cols : List ℕ)
    (hrows : rows.Pairwise (· < ·)) (hcols : cols.Pairwise (· < ·)) :
    (rowColPairs rows cols).Nodup :=
  (rowColPairs_pairwise rows cols hrows hcols).imp fun h => rowMajorLT_ne h

/-- The projector, decomposed: the descriptor list is the row-major-ordered
list of present horizontal wall positions, mapped through the horizontal
descriptor formula, followed by the same for vertical walls. -/
theorem convertTo3dWalls_eq (N : ℕ) (cellSize : ℚ) (w : Walls) :
    convertTo3dWalls N cellSize w =
      (((rowColPairs (List.range (N + 1)) (List.range N)).filter
          fun p => w.hw p.1 p.2).map fun p =>
        createWall cellSize
          (-((N : ℚ) * cellSize / 2) + ((p.2 : ℚ) + 1 / 2) * cellSize)
          (-((N : ℚ) * cellSize / 2) + (p.1 : ℚ) * cellSize) 0
          Orientation.horizontal)
      ++ (((rowColPairs (List.range N) (List.range (N + 1))).filter
          fun p => w.vw p.1 p.2).map fun p =>
        createWall cellSize
          (-((N : ℚ) * cellSize / 2) + (p.2 : ℚ) * cellSize)
          (-((N : ℚ) * cellSize / 2) + ((p.1 : ℚ) + 1 / 2) * cellSize) 0
          Orientation.vertical) := by
  unfold convertTo3dWalls rowColPairs
  congr 1
  · induction (List.range (N + 1)) with
    | nil => rfl
    | cons a t ih =>
      rw [List.flatMap_cons, List.flatMap_cons, List.filter_append,
        List.map_append, ih]
      congr 1
      rw [filterMap_ite, List.filter_map, List.map_map]
      rfl
  · induction (List.range N) with
    | nil => rfl
    | cons a t ih =>
      rw [List.flatMap_cons, List.flatMap_cons, List.filter_append,
        List.map_append, ih]
      congr 1
      rw [filterMap_ite, List.filter_map, List.map_map]
      rfl

/-- Membership characterization of the projected descriptor list: exactly
one descriptor per present wall entry, with the coordinates of
`_convert_to_3d_walls`. -/
theorem mem_convertTo3dWalls {N : ℕ} {cellSize : ℚ} {w : Walls} {d : Wall} :
    d ∈ convertTo3dWalls N cellSize w ↔
      (∃ row col, row < N + 1 ∧ col < N ∧ w.hw row col = true ∧
        d = createWall cellSize
          (-((N : ℚ) * cellSize / 2) + ((col : ℚ) + 1 / 2) * cellSize)
          (-((N : ℚ) * cellSize / 2) + (row : ℚ) * cellSize) 0
          Orientation.horizontal) ∨
      (∃ row col, row < N ∧ col < N + 1 ∧ w.vw row col = true ∧
        d = createWall cellSize
          (-((N : ℚ) * cellSize / 2) + (col : ℚ) * cellSize)
          (-((N : ℚ) * cellSize / 2) + ((row : ℚ) + 1 / 2) * cellSize) 0
          Orientation.vertical) := by
  rw [convertTo3dWalls_eq]
  rw [List.mem_append]
  constructor
  · rintro (hmem | hmem)
    · obtain ⟨p, hp, rfl⟩ := List.mem_map.mp hmem
      obtain ⟨hpl, hpw⟩ := List.mem_filter.mp hp
      obtain ⟨h1, h2⟩ := mem_rowColPairs.mp hpl
      rw [List.mem_range] at h1 h2
      exact Or.inl ⟨p.1, p.2, h1, h2, hpw, rfl⟩
    · obtain ⟨p, hp, rfl⟩ := List.mem_map.mp hmem
      obtain ⟨hpl, hpw⟩ := List.mem_filter.mp hp
      obtain ⟨h1, h2⟩ := mem_rowColPairs.mp hpl
      rw [List.mem_range] at h1 h2
      exact Or.inr ⟨p.1, p.2, h1, h2, hpw, rfl⟩
  · rintro (⟨row, col, h1, h2, h3, rfl⟩ | ⟨row, col, h1, h2, h3, rfl⟩)
    · refine Or.inl (List.mem_map.mpr ⟨(row, col), ?_, rfl⟩)
      refine List.mem_filter.mpr ⟨mem_rowColPairs.mpr ⟨?_, ?_⟩, h3⟩
      · exact List.mem_range.mpr h1
      · exact List.mem_range.mpr h2
    · refine Or.inr (List.mem_map.mpr ⟨(row, col), ?_, rfl⟩)
      refine List.mem_filter.mpr ⟨mem_rowColPairs.mpr ⟨?_, ?_⟩, h3⟩
      · exact List.mem_range.mpr h1
      · exact List.mem_range.mpr h2

/-! ### Counting the projected descriptors -/

theorem rowColPairs_range_toFinset (m n : ℕ) :
    (rowColPairs (List.range m) (List.range n)).toFinset =
      Finset.range m ×ˢ Finset.range n := by
  ext p
  rw [List.mem_toFinset, mem_rowColPairs, Finset.mem_product,
    Finset.mem_range, Finset.mem_range, List.mem_range, List.mem_range]

/-- The length of the filtered row-major position list is the cardinality of
the corresponding filtered index grid. -/
theorem length_filter_rowColPairs (m n : ℕ) (p : ℕ × ℕ → Bool) :
    ((rowColPairs (List.range m) (List.range n)).filter p).length =
      ((Finset.range m ×ˢ Finset.range n).filter fun q => p q = true).card := by
  have hnodup : (rowColPairs (List.range m) (List.range n)).Nodup :=
    rowColPairs_nodup _ _ (List.pairwise_lt_range m) (List.pairwise_lt_range n)
  have h1 : ((rowColPairs (List.range m) (List.range n)).filter p).length =
      ((rowColPairs (List.range m) (List.range n)).filter p).toFinset.card :=
    (List.toFinset_card_of_nodup (hnodup.filter p)).symm
  rw [h1, List.toFinset_filter, rowColPairs_range_toFinset]

theorem length_convertTo3dWalls (N : ℕ) (cellSize : ℚ) (w : Walls) :
    (convertTo3dWalls N cellSize w).length =
      ((Finset.range (N + 1) ×ˢ Finset.range N).filter
        fun q => w.hw q.1 q.2 = true).card +
      ((Finset.range N ×ˢ Finset.range (N + 1)).filter
        fun q => w.vw q.1 q.2 = true).card := by
  rw [convertTo3dWalls_eq, List.length_append, List.length_map,
    List.length_map, length_filter_rowColPairs, length_filter_rowColPairs]

/-- With both boundary rings intact, the number of present wall entries is
`4N` boundary walls plus the interior wall count. -/
theorem length_convert_of_boundary (N : ℕ) (cellSize : ℚ) (w : Walls)
    (hN : 1 ≤ N) (hb : BoundaryTrue N w.hw w.vw) :
    (convertTo3dWalls N cellSize w).length =
      4 * N + countInnerWalls N w.hw w.vw := by
  rw [length_convertTo3dWalls]
  have hsplitH : Finset.range (N + 1) ×ˢ Finset.range N =
      ({0} ×ˢ Finset.range N ∪ innerH N) ∪ {N} ×ˢ Finset.range N := by
    ext p
    simp only [Finset.mem_product, Finset.mem_union, Finset.mem_range,
      Finset.mem_singleton, innerH, Finset.mem_Ico]
    omega
  have hsplitV : Finset.range N ×ˢ Finset.range (N + 1) =
      (Finset.range N ×ˢ {0} ∪ innerV N) ∪ Finset.range N ×ˢ {N} := by
    ext p
    simp only [Finset.mem_product, Finset.mem_union, Finset.mem_range,
      Finset.mem_singleton, innerV, Finset.mem_Ico]
    omega
  have hdisj1 : Disjoint ({0} ×ˢ Finset.range N) (innerH N) := by
    rw [Finset.disjoint_left]
    intro p hp hp'
    simp only [Finset.mem_product, Finset.mem_singleton, Finset.mem_range] at hp
    simp only [innerH, Finset.mem_product, Finset.mem_Ico] at hp'
    omega
  have hdisj1' : Disjoint ({0} ×ˢ Finset.range N : Finset (ℕ × ℕ))
      ({N} ×ˢ Finset.range N) := by
    rw [Finset.disjoint_left]
    intro p hp hp'
    simp only [Finset.mem_product, Finset.mem_singleton, Finset.mem_range]
      at hp hp'
    omega
  have hdisj1'' : Disjoint (innerH N) ({N} ×ˢ Finset.range N) := by
    rw [Finset.disjoint_left]
    intro p hp hp'
    simp only [innerH, Finset.mem_product, Finset.mem_Ico] at hp
    simp only [Finset.mem_product, Finset.mem_singleton, Finset.mem_range] at hp'
    omega
  have hdisj3 : Disjoint (Finset.range N ×ˢ {0}) (innerV N) := by
    rw [Finset.disjoint_left]
    intro p hp hp'
    simp only [Finset.mem_product, Finset.mem_singleton, Finset.mem_range] at hp
    simp only [innerV, Finset.mem_product, Finset.mem_Ico] at hp'
    omega
  have hdisj3' : Disjoint (Finset.range N ×ˢ {0} : Finset (ℕ × ℕ))
      (Finset.range N ×ˢ {N}) := by
    rw [Finset.disjoint_left]
    intro p hp hp'
    simp only [Finset.mem_product, Finset.mem_singleton, Finset.mem_range]
      at hp hp'
    omega
  have hdisj3'' : Disjoint (innerV N) (Finset.range N ×ˢ {N}) := by
    rw [Finset.disjoint_left]
    intro p hp hp'
    simp only [innerV, Finset.mem_product, Finset.mem_Ico] at hp
    simp only [Finset.mem_product, Finset.mem_singleton, Finset.mem_range] at hp'
    omega
  have hfull1 : ({0} ×ˢ Finset.range N : Finset (ℕ × ℕ)).filter
      (fun q => w.hw q.1 q.2 = true) = {0} ×ˢ Finset.range N := by
    refine Finset.filter_true_of_mem ?_
    intro q hq
    simp only [Finset.mem_product, Finset.mem_singleton, Finset.mem_range] at hq
    rw [hq.1]
    exact (hb.1 q.2 hq.2).1
  have hfull2 : ({N} ×ˢ Finset.range N : Finset (ℕ × ℕ)).filter
      (fun q => w.hw q.1 q.2 = true) = {N} ×ˢ Finset.range N := by
    refine Finset.filter_true_of_mem ?_
    intro q hq
    simp only [Finset.mem_product, Finset.mem_singleton, Finset.mem_range] at hq
    rw [hq.1]
    exact (hb.1 q.2 hq.2).2
  have hfull3 : (Finset.range N ×ˢ {0} : Finset (ℕ × ℕ)).filter
      (fun q => w.vw q.1 q.2 = true) = Finset.range N ×ˢ {0} := by
    refine Finset.filter_true_of_mem ?_
    intro q hq
    simp only [Finset.mem_product, Finset.mem_singleton, Finset.mem_range] at hq
    rw [hq.2]
    exact (hb.2 q.1 hq.1).1
  have hfull4 : (Finset.range N ×ˢ {N} : Finset (ℕ × ℕ)).filter
      (fun q => w.vw q.1 q.2 = true) = Finset.range N ×ˢ {N} := by
    refine Finset.filter_true_of_mem ?_
    intro q hq
    simp only [Finset.mem_product, Finset.mem_singleton, Finset.mem_range] at hq
    rw [hq.2]
    exact (hb.2 q.1 hq.1).2
  rw [hsplitH, hsplitV, Finset.filter_union, Finset.filter_union,
    Finset.filter_union, Finset.filter_union,
    Finset.card_union_of_disjoint (Finset.disjoint_union_left.mpr
      ⟨Finset.disjoint_filter_filter hdisj1',
       Finset.disjoint_filter_filter hdisj1''⟩),
    Finset.card_union_of_disjoint (Finset.disjoint_filter_filter hdisj1),
    Finset.card_union_of_disjoint (Finset.disjoint_union_left.mpr
      ⟨Finset.disjoint_filter_filter hdisj3',
       Finset.disjoint_filter_filter hdisj3''⟩),
    Finset.card_union_of_disjoint (Finset.disjoint_filter_filter hdisj3),
    hfull1, hfull2, hfull3, hfull4]
  have hc1 : ({0} ×ˢ Finset.range N : Finset (ℕ × ℕ)).card = N := by simp
  have hc2 : ({N} ×ˢ Finset.range N : Finset (ℕ × ℕ)).card = N := by simp
  have hc3 : (Finset.range N ×ˢ {0} : Finset (ℕ × ℕ)).card = N := by simp
  have hc4 : (Finset.range N ×ˢ {N} : Finset (ℕ × ℕ)).card = N := by simp
  unfold countInnerWalls
  omega

/-! ## Pipeline-level facts -/

/-- The densifier's `random.shuffle` modelled as an arbitrary
permutation-producing function. -/
def IsShuffler (shuffleC : List Cand → List Cand) : Prop :=
  ∀ l, (shuffleC l).Perm l

/-- Invariant I2, stated graph-theoretically: every cell is reachable from
every other cell along open walls. -/
def FullyConnected (N : ℕ) (w : Walls) : Prop :=
  ∀ a b : ℕ × ℕ, a.1 < N → a.2 < N → b.1 < N → b.2 < N →
    Relation.ReflTransGen (adjOpen N w.hw w.vw) a b

theorem fullyConnected_of_checker (N : ℕ) (w : Walls) (hN : 0 < N)
    (hc : isAllConnected N w.hw w.vw = true) : FullyConnected N w := by
  intro a b ha1 ha2 hb1 hb2
  have h0 := isAllConnected_reaches N w.hw w.vw hN hc
  refine Relation.ReflTransGen.trans ?_ (h0 b hb1 hb2)
  exact (Relation.ReflTransGen.symmetric fun x y h => adjOpen_symm h)
    (h0 a ha1 ha2)

theorem checker_of_fullyConnected (N : ℕ) (w : Walls) (hN : 0 < N)
    (hfc : FullyConnected N w) : isAllConnected N w.hw w.vw = true := by
  refine isAllConnected_of_reaches N w.hw w.vw hN ?_
  intro x hx1 hx2
  exact hfc (0, 0) x hN hN hx1 hx2

theorem shuffled_cands_open {N : ℕ} {w : Walls}
    {shuffleC : List Cand → List Cand} (hsh : IsShuffler shuffleC) :
    ∀ x ∈ shuffleC (removablePaths N w), getWall w x = false :=
  fun x hx =>
    removablePaths_open (((hsh (removablePaths N w)).mem_iff).mp hx)

theorem shuffled_cands_interior {N : ℕ} {w : Walls}
    {shuffleC : List Cand → List Cand} (hsh : IsShuffler shuffleC) :
    ∀ x ∈ shuffleC (removablePaths N w), CandInterior N x :=
  fun x hx =>
    removablePaths_interior (((hsh (removablePaths N w)).mem_iff).mp hx)

theorem shuffled_cands_nodup {N : ℕ} {w : Walls}
    {shuffleC : List Cand → List Cand} (hsh : IsShuffler shuffleC) :
    (shuffleC (removablePaths N w)).Nodup :=
  ((hsh (removablePaths N w)).nodup_iff).mpr (removablePaths_nodup N w)

theorem finalWalls_no_densify (N : ℕ) (minW : ℤ) (rs : ℕ → List (ℤ × ℤ))
    (sr sc : ℕ) (shuffleC : List Cand → List Cand)
    (h : ¬((countInnerWalls N (carvedWalls N rs sr sc).hw
      (carvedWalls N rs sr sc).vw : ℤ) < minW)) :
    finalWalls N minW rs sr sc shuffleC = carvedWalls N rs sr sc := by
  simp only [finalWalls]
  rw [if_neg h]

theorem finalWalls_densify (N : ℕ) (minW : ℤ) (rs : ℕ → List (ℤ × ℤ))
    (sr sc : ℕ) (shuffleC : List Cand → List Cand)
    (h : (countInnerWalls N (carvedWalls N rs sr sc).hw
      (carvedWalls N rs sr sc).vw : ℤ) < minW) :
    finalWalls N minW rs sr sc shuffleC =
      (addLoop N (minW - (countInnerWalls N (carvedWalls N rs sr sc).hw
          (carvedWalls N rs sr sc).vw : ℕ)).toNat
        (shuffleC (removablePaths N (carvedWalls N rs sr sc)))
        (carvedWalls N rs sr sc) 0).1 := by
  simp only [finalWalls, addAdditionalWalls]
  rw [if_pos h]

theorem addedWalls_densify (N : ℕ) (minW : ℤ) (rs : ℕ → List (ℤ × ℤ))
    (sr sc : ℕ) (shuffleC : List Cand → List Cand)
    (h : (countInnerWalls N (carvedWalls N rs sr sc).hw
      (carvedWalls N rs sr sc).vw : ℤ) < minW) :
    addedWalls N minW rs sr sc shuffleC =
      (addLoop N (minW - (countInnerWalls N (carvedWalls N rs sr sc).hw
          (carvedWalls N rs sr sc).vw : ℕ)).toNat
        (shuffleC (removablePaths N (carvedWalls N rs sr sc)))
        (carvedWalls N rs sr sc) 0).2 := by
  simp only [addedWalls, addAdditionalWalls]
  rw [if_pos h]

/-- Bundle of facts about the final wall state: the checker still reports
full connectivity, the boundary is intact, the interior wall count equals
the carved count plus the number of accepted additions, and (when the
densifier ran) the count never exceeds `min_walls`. -/
theorem finalWalls_spec (N : ℕ) (minW : ℤ) (rs : ℕ → List (ℤ × ℤ))
    (sr sc : ℕ) (shuffleC : List Cand → List Cand)
    (hrs : IsShuffleSeq rs) (hsh : IsShuffler shuffleC)
    (hN : 0 < N) (hsr : sr < N) (hsc : sc < N) :
    isAllConnected N (finalWalls N minW rs sr sc shuffleC).hw
        (finalWalls N minW rs sr sc shuffleC).vw = true ∧
    BoundaryTrue N (finalWalls N minW rs sr sc shuffleC).hw
        (finalWalls N minW rs sr sc shuffleC).vw ∧
    countInnerWalls N (finalWalls N minW rs sr sc shuffleC).hw
        (finalWalls N minW rs sr sc shuffleC).vw =
      countInnerWalls N (carvedWalls N rs sr sc).hw
        (carvedWalls N rs sr sc).vw + addedWalls N minW rs sr sc shuffleC ∧
    ((countInnerWalls N (carvedWalls N rs sr sc).hw
        (carvedWalls N rs sr sc).vw : ℤ) < minW →
      (countInnerWalls N (finalWalls N minW rs sr sc shuffleC).hw
        (finalWalls N minW rs sr sc shuffleC).vw : ℤ) ≤ minW) := by
  have hconn0 := carved_connected N rs sr sc hrs hN hsr hsc
  have hbound0 := (dfsCarveFrom_inv N rs sr sc hrs hsr hsc).boundary
  by_cases h : (countInnerWalls N (carvedWalls N rs sr sc).hw
      (carvedWalls N rs sr sc).vw : ℤ) < minW
  · rw [finalWalls_densify N minW rs sr sc shuffleC h,
      addedWalls_densify N minW rs sr sc shuffleC h]
    obtain ⟨c1, c2, c3, c4, c5⟩ := addLoop_spec N
      (minW - (countInnerWalls N (carvedWalls N rs sr sc).hw
        (carvedWalls N rs sr sc).vw : ℕ)).toNat
      (shuffleC (removablePaths N (carvedWalls N rs sr sc)))
      (carvedWalls N rs sr sc) 0 hconn0
      (shuffled_cands_open hsh) (shuffled_cands_nodup hsh)
      (shuffled_cands_interior hsh)
    refine ⟨c1, c5 hbound0, by omega, ?_⟩
    intro _
    have hc4 : (addLoop N (minW - (countInnerWalls N (carvedWalls N rs sr sc).hw
        (carvedWalls N rs sr sc).vw : ℕ)).toNat
        (shuffleC (removablePaths N (carvedWalls N rs sr sc)))
        (carvedWalls N rs sr sc) 0).2 ≤
        (minW - (countInnerWalls N (carvedWalls N rs sr sc).hw
          (carvedWalls N rs sr sc).vw : ℕ)).toNat :=
      le_trans c4 (le_of_eq (Nat.zero_max _))
    omega
  · rw [finalWalls_no_densify N minW rs sr sc shuffleC h]
    have hadded : addedWalls N minW rs sr sc shuffleC = 0 := by
      simp only [addedWalls]
      rw [if_neg h]
    rw [hadded]
    exact ⟨hconn0, hbound0, by omega, fun hlt => absurd hlt h⟩

/-- After processing any prefix of the shuffled candidate list, the wall
state is still fully connected and the boundary is intact (invariants I1 and
I2 hold after every densifier step). -/
theorem densify_upto_spec (N : ℕ) (num : ℕ) (rs : ℕ → List (ℤ × ℤ))
    (sr sc : ℕ) (shuffleC : List Cand → List Cand)
    (hrs : IsShuffleSeq rs) (hsh : IsShuffler shuffleC)
    (hN : 0 < N) (hsr : sr < N) (hsc : sc < N)
    (l₁ l₂ : List Cand)
    (hsplit : shuffleC (removablePaths N (carvedWalls N rs sr sc)) = l₁ ++ l₂) :
    isAllConnected N (addLoop N num l₁ (carvedWalls N rs sr sc) 0).1.hw
        (addLoop N num l₁ (carvedWalls N rs sr sc) 0).1.vw = true ∧
    BoundaryTrue N (addLoop N num l₁ (carvedWalls N rs sr sc) 0).1.hw
        (addLoop N num l₁ (carvedWalls N rs sr sc) 0).1.vw := by
  have hopen1 : ∀ x ∈ l₁, getWall (carvedWalls N rs sr sc) x = false := by
    intro x hx
    refine shuffled_cands_open (N := N) hsh x ?_
    rw [hsplit]
    exact List.mem_append.mpr (Or.inl hx)
  have hint1 : ∀ x ∈ l₁, CandInterior N x := by
    intro x hx
    refine shuffled_cands_interior (N := N) (w := carvedWalls N rs sr sc)
      hsh x ?_
    rw [hsplit]
    exact List.mem_append.mpr (Or.inl hx)
  have hnodup1 : l₁.Nodup := by
    have := shuffled_cands_nodup (N := N) (w := carvedWalls N rs sr sc) hsh
    rw [hsplit] at this
    exact (List.nodup_append.mp this).1
  obtain ⟨c1, -, -, -, c5⟩ := addLoop_spec N num l₁ (carvedWalls N rs sr sc) 0
    (carved_connected N rs sr sc hrs hN hsr hsc) hopen1 hnodup1 hint1
  exact ⟨c1, c5 (dfsCarveFrom_inv N rs sr sc hrs hsr hsc).boundary⟩

/-- When `min_walls` does not exceed the carved interior wall count, the
densifier never runs and the projected output has `4N + (N−1)²`
descriptors. -/
theorem output_length_no_densify (N : ℕ) (cs : ℚ) (minW : ℤ)
    (rs : ℕ → List (ℤ × ℤ)) (sr sc : ℕ) (shuffleC : List Cand → List Cand)
    (hrs : IsShuffleSeq rs) (hN : 1 ≤ N) (hsr : sr < N) (hsc : sc < N)
    (hminW : minW ≤ ((N - 1) * (N - 1) : ℕ)) :
    finalWalls N minW rs sr sc shuffleC = carvedWalls N rs sr sc ∧
    addedWalls N minW rs sr sc shuffleC = 0 ∧
    (generateMaze N cs minW rs sr sc shuffleC).length =
      4 * N + (N - 1) * (N - 1) := by
  have hcount := carved_countInner N rs sr sc hrs hsr hsc
  have hnd : ¬((countInnerWalls N (carvedWalls N rs sr sc).hw
      (carvedWalls N rs sr sc).vw : ℤ) < minW) := by
    rw [hcount]
    omega
  refine ⟨finalWalls_no_densify N minW rs sr sc shuffleC hnd, ?_, ?_⟩
  · simp only [addedWalls]
    rw [if_neg hnd]
  · simp only [generateMaze]
    rw [finalWalls_no_densify N minW rs sr sc shuffleC hnd,
      length_convert_of_boundary N cs _ hN
        (dfsCarveFrom_inv N rs sr sc hrs hsr hsc).boundary, hcount]

/-! ## The claims -/

/-- C1: for every grid size `N ≥ 1`, every admissible randomness, and every
start cell, invariant I2 (global connectivity of the open-wall graph over
the `N²` cells) holds after the carver completes, after the densifier has
processed any prefix of its shuffled candidate list (hence after every
accepted wall addition), and for the final wall state handed to the
projector. -/
theorem claim_C1_connectivity_invariant (N : ℕ) (minW : ℤ)
    (rs : ℕ → List (ℤ × ℤ)) (sr sc : ℕ) (shuffleC : List Cand → List Cand)
    (hN : 1 ≤ N) (hrs : IsShuffleSeq rs) (hsh : IsShuffler shuffleC)
    (hsr : sr < N) (hsc : sc < N) :
    FullyConnected N (carvedWalls N rs sr sc) ∧
    (∀ (num : ℕ) (l₁ l₂ : List Cand),
      shuffleC (removablePaths N (carvedWalls N rs sr sc)) = l₁ ++ l₂ →
      FullyConnected N (addLoop N num l₁ (carvedWalls N rs sr sc) 0).1) ∧
    FullyConnected N (finalWalls N minW rs sr sc shuffleC) := by
  refine ⟨?_, ?_, ?_⟩
  · exact fullyConnected_of_checker _ _ hN
      (carved_connected N rs sr sc hrs hN hsr hsc)
  · intro num l₁ l₂ hsplit
    exact fullyConnected_of_checker _ _ hN
      (densify_upto_spec N num rs sr sc shuffleC hrs hsh hN hsr hsc
        l₁ l₂ hsplit).1
  · exact fullyConnected_of_checker _ _ hN
      (finalWalls_spec N minW rs sr sc shuffleC hrs hsh hN hsr hsc).1

theorem claim_C1_witness :
    (1 : ℕ) ≤ 2 ∧
    (FullyConnected 2 (carvedWalls 2 (fun _ => baseDirections) 0 0) ∧
    (∀ (num : ℕ) (l₁ l₂ : List Cand),
      id (removablePaths 2 (carvedWalls 2 (fun _ => baseDirections) 0 0)) =
        l₁ ++ l₂ →
      FullyConnected 2
        (addLoop 2 num l₁ (carvedWalls 2 (fun _ => baseDirections) 0 0) 0).1) ∧
    FullyConnected 2 (finalWalls 2 0 (fun _ => baseDirections) 0 0 id)) :=
  ⟨by decide, claim_C1_connectivity_invariant 2 0 (fun _ => baseDirections)
    0 0 id (by decide) (fun k => List.Perm.refl baseDirections)
    (fun l => List.Perm.refl l) (by decide) (by decide)⟩

/-- C2: for every `N ≥ 1`, every shuffle stream, and every start cell,
after the carver finishes: exactly `N² − 1` interior wall entries are
cleared (`false`); every cell is visited (`visited = validCells N`), and
since the DFS only ever marks unvisited cells and the invocation counter
`k` — one `_dfs_carve` call and one consumed shuffle per marked cell —
equals `N²`, each cell is visited exactly once; and the connectivity
checker returns `true` on the carved state. -/
theorem claim_C2_carver_spanning_tree (N : ℕ) (rs : ℕ → List (ℤ × ℤ))
    (sr sc : ℕ) (hN : 1 ≤ N) (hrs : IsShuffleSeq rs)
    (hsr : sr < N) (hsc : sc < N) :
    clearedInnerWalls N (carvedWalls N rs sr sc).hw
        (carvedWalls N rs sr sc).vw = N * N - 1 ∧
    (dfsCarveFrom N rs sr sc).visited = validCells N ∧
    (dfsCarveFrom N rs sr sc).k = N * N ∧
    isAllConnected N (carvedWalls N rs sr sc).hw
        (carvedWalls N rs sr sc).vw = true :=
  ⟨carved_cleared N rs sr sc hrs hsr hsc,
   dfsCarveFrom_visits_all N rs sr sc hrs hsr hsc,
   carved_k N rs sr sc hrs hsr hsc,
   carved_connected N rs sr sc hrs hN hsr hsc⟩

theorem claim_C2_witness :
    (1 : ℕ) ≤ 2 ∧
    (clearedInnerWalls 2 (carvedWalls 2 (fun _ => baseDirections) 0 0).hw
        (carvedWalls 2 (fun _ => baseDirections) 0 0).vw = 2 * 2 - 1 ∧
    (dfsCarveFrom 2 (fun _ => baseDirections) 0 0).visited = validCells 2 ∧
    (dfsCarveFrom 2 (fun _ => baseDirections) 0 0).k = 2 * 2 ∧
    isAllConnected 2 (carvedWalls 2 (fun _ => baseDirections) 0 0).hw
        (carvedWalls 2 (fun _ => baseDirections) 0 0).vw = true) :=
  ⟨by decide, claim_C2_carver_spanning_tree 2 (fun _ => baseDirections) 0 0
    (by decide) (fun k => List.Perm.refl baseDirections)
    (by decide) (by decide)⟩

/-- C3: for every `N ≥ 1` and every wall state, the checker returns `true`
iff the number of distinct cells reachable from `(0,0)` across absent
walls equals `N²`.  In this functional embedding the checker cannot mutate
the wall state (it only reads `hw`/`vw`), so invoking it twice on the same
state trivially yields the same result — recorded as the second conjunct. -/
theorem claim_C3_checker_correct (N : ℕ) (hw vw : ℕ → ℕ → Bool)
    (hN : 1 ≤ N) :
    (isAllConnected N hw vw = true ↔
      Set.ncard {x : ℕ × ℕ |
        Relation.ReflTransGen (adjOpen N hw vw) (0, 0) x} = N * N) ∧
    isAllConnected N hw vw = isAllConnected N hw vw :=
  ⟨isAllConnected_iff_ncard N hw vw hN, rfl⟩

theorem claim_C3_witness :
    (1 : ℕ) ≤ 1 ∧
    ((isAllConnected 1 (fun _ _ => true) (fun _ _ => true) = true ↔
      Set.ncard {x : ℕ × ℕ |
        Relation.ReflTransGen (adjOpen 1 (fun _ _ => true) (fun _ _ => true))
          (0, 0) x} = 1 * 1) ∧
    isAllConnected 1 (fun _ _ => true) (fun _ _ => true) =
      isAllConnected 1 (fun _ _ => true) (fun _ _ => true)) :=
  ⟨by decide, claim_C3_checker_correct 1 (fun _ _ => true) (fun _ _ => true)
    (by decide)⟩

/-- C4: every boundary wall entry is `true` at construction and stays
`true` after carving, after the densifier has processed any prefix of its
candidate list, and in the final state handed to the projector (which never
writes to the wall state at all): invariant I1. -/
theorem claim_C4_boundary_immutable (N : ℕ) (minW : ℤ)
    (rs : ℕ → List (ℤ × ℤ)) (sr sc : ℕ) (shuffleC : List Cand → List Cand)
    (hN : 1 ≤ N) (hrs : IsShuffleSeq rs) (hsh : IsShuffler shuffleC)
    (hsr : sr < N) (hsc : sc < N) :
    BoundaryTrue N initialWalls.hw initialWalls.vw ∧
    BoundaryTrue N (carvedWalls N rs sr sc).hw (carvedWalls N rs sr sc).vw ∧
    (∀ (num : ℕ) (l₁ l₂ : List Cand),
      shuffleC (removablePaths N (carvedWalls N rs sr sc)) = l₁ ++ l₂ →
      BoundaryTrue N (addLoop N num l₁ (carvedWalls N rs sr sc) 0).1.hw
        (addLoop N num l₁ (carvedWalls N rs sr sc) 0).1.vw) ∧
    BoundaryTrue N (finalWalls N minW rs sr sc shuffleC).hw
      (finalWalls N minW rs sr sc shuffleC).vw := by
  refine ⟨⟨fun c _ => ⟨rfl, rfl⟩, fun r _ => ⟨rfl, rfl⟩⟩,
    (dfsCarveFrom_inv N rs sr sc hrs hsr hsc).boundary, ?_, ?_⟩
  · intro num l₁ l₂ hsplit
    exact (densify_upto_spec N num rs sr sc shuffleC hrs hsh hN hsr hsc
      l₁ l₂ hsplit).2
  · exact (finalWalls_spec N minW rs sr sc shuffleC hrs hsh hN hsr hsc).2.1

theorem claim_C4_witness :
    (1 : ℕ) ≤ 2 ∧
    (BoundaryTrue 2 initialWalls.hw initialWalls.vw ∧
    BoundaryTrue 2 (carvedWalls 2 (fun _ => baseDirections) 0 0).hw
      (carvedWalls 2 (fun _ => baseDirections) 0 0).vw ∧
    (∀ (num : ℕ) (l₁ l₂ : List Cand),
      id (removablePaths 2 (carvedWalls 2 (fun _ => baseDirections) 0 0)) =
        l₁ ++ l₂ →
      BoundaryTrue 2
        (addLoop 2 num l₁ (carvedWalls 2 (fun _ => baseDirections) 0 0) 0).1.hw
        (addLoop 2 num l₁ (carvedWalls 2 (fun _ => baseDirections) 0 0) 0).1.vw) ∧
    BoundaryTrue 2 (finalWalls 2 3 (fun _ => baseDirections) 0 0 id).hw
      (finalWalls 2 3 (fun _ => baseDirections) 0 0 id).vw) :=
  ⟨by decide, claim_C4_boundary_immutable 2 3 (fun _ => baseDirections) 0 0 id
    (by decide) (fun k => List.Perm.refl baseDirections)
    (fun l => List.Perm.refl l) (by decide) (by decide)⟩

/-- C5: a single densifier candidate is processed atomically: with the
target not yet met and the candidate's entry open, afterwards either the
wall entry is `true`, the grid is still fully connected and the addition is
counted, or the entire wall state equals what it was before the candidate
was tried and the count is unchanged. -/
theorem claim_C5_densifier_atomic (N num : ℕ) (k : WallKind) (r c : ℕ)
    (w : Walls) (a : ℕ) (hN : 1 ≤ N) (ha : a < num)
    (hopen : getWall w (k, r, c) = false) :
    (getWall (addLoop N num [(k, r, c)] w a).1 (k, r, c) = true ∧
      isAllConnected N (addLoop N num [(k, r, c)] w a).1.hw
        (addLoop N num [(k, r, c)] w a).1.vw = true ∧
      FullyConnected N (addLoop N num [(k, r, c)] w a).1 ∧
      (addLoop N num [(k, r, c)] w a).2 = a + 1) ∨
    ((addLoop N num [(k, r, c)] w a).1 = w ∧
      (addLoop N num [(k, r, c)] w a).2 = a) := by
  rcases addLoop_single_atomic N num k r c w a ha hopen with ⟨h1, h2, h3⟩ | h
  · exact Or.inl ⟨h1, h2, fullyConnected_of_checker _ _ hN h2, h3⟩
  · exact Or.inr h

theorem claim_C5_witness :
    getWall (setWall initialWalls WallKind.horiz 1 0 false)
      (WallKind.horiz, 1, 0) = false ∧
    ((getWall (addLoop 2 1 [(WallKind.horiz, 1, 0)]
        (setWall initialWalls WallKind.horiz 1 0 false) 0).1
        (WallKind.horiz, 1, 0) = true ∧
      isAllConnected 2 (addLoop 2 1 [(WallKind.horiz, 1, 0)]
        (setWall initialWalls WallKind.horiz 1 0 false) 0).1.hw
        (addLoop 2 1 [(WallKind.horiz, 1, 0)]
        (setWall initialWalls WallKind.horiz 1 0 false) 0).1.vw = true ∧
      FullyConnected 2 (addLoop 2 1 [(WallKind.horiz, 1, 0)]
        (setWall initialWalls WallKind.horiz 1 0 false) 0).1 ∧
      (addLoop 2 1 [(WallKind.horiz, 1, 0)]
        (setWall initialWalls WallKind.horiz 1 0 false) 0).2 = 0 + 1) ∨
    ((addLoop 2 1 [(WallKind.horiz, 1, 0)]
        (setWall initialWalls WallKind.horiz 1 0 false) 0).1 =
      setWall initialWalls WallKind.horiz 1 0 false ∧
      (addLoop 2 1 [(WallKind.horiz, 1, 0)]
        (setWall initialWalls WallKind.horiz 1 0 false) 0).2 = 0)) :=
  ⟨by decide, claim_C5_densifier_atomic 2 1 WallKind.horiz 1 0
    (setWall initialWalls WallKind.horiz 1 0 false) 0 (by decide) (by decide)
    (by decide)⟩

/-- C6 (counterexample): at `grid_size = 2`, `min_walls = 0`, with the
identity shuffles and start cell `(0,0)`, the interior wall count after the
whole pipeline is `1`, which exceeds `min_walls = 0`, even though the
densifier was never invoked (the carved count `1` is not below
`min_walls`), so no PartialDensification capping occurred.  The claim's
"count after the pipeline ≤ min_walls unless capped" is therefore false as
stated. -/
theorem claim_C6_counterexample :
    countInnerWalls 2 (finalWalls 2 0 (fun _ => baseDirections) 0 0 id).hw
        (finalWalls 2 0 (fun _ => baseDirections) 0 0 id).vw = 1 ∧
    ¬((countInnerWalls 2 (finalWalls 2 0 (fun _ => baseDirections) 0 0 id).hw
        (finalWalls 2 0 (fun _ => baseDirections) 0 0 id).vw : ℤ) ≤ 0) ∧
    ¬((countInnerWalls 2
        (carvedWalls 2 (fun _ => baseDirections) 0 0).hw
        (carvedWalls 2 (fun _ => baseDirections) 0 0).vw : ℤ) < 0) := by
  have hcount := carved_countInner 2 (fun _ => baseDirections) 0 0
    (fun k => List.Perm.refl baseDirections) (by decide) (by decide)
  have hnd : ¬((countInnerWalls 2
      (carvedWalls 2 (fun _ => baseDirections) 0 0).hw
      (carvedWalls 2 (fun _ => baseDirections) 0 0).vw : ℤ) < 0) := by
    rw [hcount]
    norm_num
  have hfin := finalWalls_no_densify 2 0 (fun _ => baseDirections) 0 0 id hnd
  rw [hfin, hcount]
  norm_num

/-- C6 (amended): the interior wall count after the whole pipeline is ≥ the
count after carving; when the densifier is actually invoked (carved count
below `min_walls`) the final count is ≤ `min_walls`; and connectivity holds
after the densifier has processed any prefix of its candidate list, hence
after every intermediate accepted addition.  (The original claim's
unconditional "≤ min_walls unless capped by PartialDensification" fails
when the carved count already exceeds `min_walls`; see the
counterexample.) -/
theorem claim_C6_densification_monotonicity (N : ℕ) (minW : ℤ)
    (rs : ℕ → List (ℤ × ℤ)) (sr sc : ℕ) (shuffleC : List Cand → List Cand)
    (hN : 1 ≤ N) (hrs : IsShuffleSeq rs) (hsh : IsShuffler shuffleC)
    (hsr : sr < N) (hsc : sc < N) :
    countInnerWalls N (carvedWalls N rs sr sc).hw (carvedWalls N rs sr sc).vw ≤
      countInnerWalls N (finalWalls N minW rs sr sc shuffleC).hw
        (finalWalls N minW rs sr sc shuffleC).vw ∧
    ((countInnerWalls N (carvedWalls N rs sr sc).hw
        (carvedWalls N rs sr sc).vw : ℤ) < minW →
      (countInnerWalls N (finalWalls N minW rs sr sc shuffleC).hw
        (finalWalls N minW rs sr sc shuffleC).vw : ℤ) ≤ minW) ∧
    (∀ (num : ℕ) (l₁ l₂ : List Cand),
      shuffleC (removablePaths N (carvedWalls N rs sr sc)) = l₁ ++ l₂ →
      isAllConnected N (addLoop N num l₁ (carvedWalls N rs sr sc) 0).1.hw
        (addLoop N num l₁ (carvedWalls N rs sr sc) 0).1.vw = true) := by
  obtain ⟨-, -, hcount, hcap⟩ :=
    finalWalls_spec N minW rs sr sc shuffleC hrs hsh hN hsr hsc
  refine ⟨by omega, hcap, ?_⟩
  intro num l₁ l₂ hsplit
  exact (densify_upto_spec N num rs sr sc shuffleC hrs hsh hN hsr hsc
    l₁ l₂ hsplit).1

theorem claim_C6_witness :
    (1 : ℕ) ≤ 2 ∧
    (countInnerWalls 2 (carvedWalls 2 (fun _ => baseDirections) 0 0).hw
        (carvedWalls 2 (fun _ => baseDirections) 0 0).vw ≤
      countInnerWalls 2 (finalWalls 2 2 (fun _ => baseDirections) 0 0 id).hw
        (finalWalls 2 2 (fun _ => baseDirections) 0 0 id).vw ∧
    ((countInnerWalls 2 (carvedWalls 2 (fun _ => baseDirections) 0 0).hw
        (carvedWalls 2 (fun _ => baseDirections) 0 0).vw : ℤ) < 2 →
      (countInnerWalls 2 (finalWalls 2 2 (fun _ => baseDirections) 0 0 id).hw
        (finalWalls 2 2 (fun _ => baseDirections) 0 0 id).vw : ℤ) ≤ 2) ∧
    (∀ (num : ℕ) (l₁ l₂ : List Cand),
      id (removablePaths 2 (carvedWalls 2 (fun _ => baseDirections) 0 0)) =
        l₁ ++ l₂ →
      isAllConnected 2
        (addLoop 2 num l₁ (carvedWalls 2 (fun _ => baseDirections) 0 0) 0).1.hw
        (addLoop 2 num l₁ (carvedWalls 2 (fun _ => baseDirections) 0 0) 0).1.vw
        = true)) :=
  ⟨by decide, claim_C6_densification_monotonicity 2 2 (fun _ => baseDirections)
    0 0 id (by decide) (fun k => List.Perm.refl baseDirections)
    (fun l => List.Perm.refl l) (by decide) (by decide)⟩

/-- C7 (code bug): neither `MazeGenerator.__init__` nor `main` validates
the configuration, so an InvalidConfiguration input is *not* rejected
before generation.  Evaluating the embedded pipeline at the failing input
`grid_size = 5, min_walls = −3` (negative) shows generation runs to
completion and projects all 36 walls — likewise with the non-positive
`cell_size = −1` — instead of failing fatally before carving.  (For
`grid_size ≤ 0` the program instead dies of an uncaught `ValueError` inside
`random.randint` during generation, which is also not a pre-generation
rejection.) -/
theorem claim_C7_no_validation_code_bug :
    (generateMaze 5 1 (-3) (fun _ => baseDirections) 0 0 id).length = 36 ∧
    (generateMaze 5 (-1) (-3) (fun _ => baseDirections) 0 0 id).length = 36 := by
  have h1 := (output_length_no_densify 5 1 (-3) (fun _ => baseDirections)
    0 0 id (fun k => List.Perm.refl baseDirections) (by decide) (by decide)
    (by decide) (by norm_num)).2.2
  have h2 := (output_length_no_densify 5 (-1) (-3) (fun _ => baseDirections)
    0 0 id (fun k => List.Perm.refl baseDirections) (by decide) (by decide)
    (by decide) (by norm_num)).2.2
  norm_num at h1 h2
  exact ⟨h1, h2⟩

/-- C8 (counterexample): at `grid_size = 5`, `min_walls = 0`, with identity
shuffles and start `(0,0)`, the projected output has 36 descriptors, not
the 44 the claim states: `N² − 1 = 24` is the number of *cleared* interior
wall entries, while the interior walls still standing number
`(N−1)² = 16`. -/
theorem claim_C8_counterexample :
    (generateMaze 5 1 0 (fun _ => baseDirections) 0 0 id).length = 36 ∧
    (generateMaze 5 1 0 (fun _ => baseDirections) 0 0 id).length ≠ 44 := by
  have h := (output_length_no_densify 5 1 0 (fun _ => baseDirections)
    0 0 id (fun k => List.Perm.refl baseDirections) (by decide) (by decide)
    (by decide) (by norm_num)).2.2
  norm_num at h
  exact ⟨h, by omega⟩

/-- C8 (amended): for `grid_size = 5`, `min_walls = 0`, any cell size, and
every random choice sequence, the densifier performs no work (the final
wall state is the carved state and zero walls are added) and the projected
output contains exactly 36 wall descriptors: 20 boundary walls plus
`(N−1)² = 16` interior walls (the spec's `N²−1 = 24` counts the *cleared*
entries, not the remaining walls). -/
theorem claim_C8_output_count (cs : ℚ) (rs : ℕ → List (ℤ × ℤ)) (sr sc : ℕ)
    (shuffleC : List Cand → List Cand) (hrs : IsShuffleSeq rs)
    (hsr : sr < 5) (hsc : sc < 5) :
    finalWalls 5 0 rs sr sc shuffleC = carvedWalls 5 rs sr sc ∧
    addedWalls 5 0 rs sr sc shuffleC = 0 ∧
    (generateMaze 5 cs 0 rs sr sc shuffleC).length = 20 + 16 := by
  obtain ⟨h1, h2, h3⟩ := output_length_no_densify 5 cs 0 rs sr sc shuffleC
    hrs (by decide) hsr hsc (by norm_num)
  norm_num at h3
  exact ⟨h1, h2, by omega⟩

theorem claim_C8_witness :
    (0 : ℕ) < 5 ∧
    (finalWalls 5 0 (fun _ => baseDirections) 0 0 id =
      carvedWalls 5 (fun _ => baseDirections) 0 0 ∧
    addedWalls 5 0 (fun _ => baseDirections) 0 0 id = 0 ∧
    (generateMaze 5 1 0 (fun _ => baseDirections) 0 0 id).length = 20 + 16) :=
  ⟨by decide, claim_C8_output_count 1 (fun _ => baseDirections) 0 0 id
    (fun k => List.Perm.refl baseDirections) (by decide) (by decide)⟩

/-- C9: the projector is a pure function of the final wall state (in this
embedding it reads only `hw`/`vw`); every present horizontal entry
`(row, col)` yields a descriptor centred at
`(−half_extent + (col + ½)·cell_size, −half_extent + row·cell_size)` with
footprint `(cell_size, thickness)`, every present vertical entry yields
`(−half_extent + col·cell_size, −half_extent + (row + ½)·cell_size)` with
footprint `(thickness, cell_size)`, with `half_extent = N·cell_size/2`; and
every descriptor has yaw `0`, the shared height, and vertical centre
`height/2`. -/
theorem claim_C9_projector_geometry (N : ℕ) (cs : ℚ) (w : Walls) :
    (∀ row col, row ≤ N → col < N → w.hw row col = true →
      ({ x := -((N : ℚ) * cs / 2) + ((col : ℚ) + 1 / 2) * cs,
         y := -((N : ℚ) * cs / 2) + (row : ℚ) * cs,
         z := wallHeight / 2, length := cs, width := wallThickness,
         height := wallHeight, yaw := 0 } : Wall) ∈ convertTo3dWalls N cs w) ∧
    (∀ row col, row < N → col ≤ N → w.vw row col = true →
      ({ x := -((N : ℚ) * cs / 2) + (col : ℚ) * cs,
         y := -((N : ℚ) * cs / 2) + ((row : ℚ) + 1 / 2) * cs,
         z := wallHeight / 2, length := wallThickness, width := cs,
         height := wallHeight, yaw := 0 } : Wall) ∈ convertTo3dWalls N cs w) ∧
    (∀ d ∈ convertTo3dWalls N cs w,
      d.yaw = 0 ∧ d.height = wallHeight ∧ d.z = wallHeight / 2) := by
  refine ⟨?_, ?_, ?_⟩
  · intro row col hr hc hwall
    refine mem_convertTo3dWalls.mpr (Or.inl ⟨row, col, by omega, hc, hwall, ?_⟩)
    simp only [createWall, zero_add]
  · intro row col hr hc hwall
    refine mem_convertTo3dWalls.mpr (Or.inr ⟨row, col, hr, by omega, hwall, ?_⟩)
    simp only [createWall, zero_add]
  · intro d hd
    rcases mem_convertTo3dWalls.mp hd with
      ⟨row, col, -, -, -, rfl⟩ | ⟨row, col, -, -, -, rfl⟩
    · exact ⟨rfl, rfl, by simp [createWall]⟩
    · exact ⟨rfl, rfl, by simp [createWall]⟩

theorem claim_C9_witness :
    ({ x := -(((1 : ℕ) : ℚ) * 1 / 2) + (((0 : ℕ) : ℚ) + 1 / 2) * 1,
       y := -(((1 : ℕ) : ℚ) * 1 / 2) + ((0 : ℕ) : ℚ) * 1,
       z := wallHeight / 2, length := 1, width := wallThickness,
       height := wallHeight, yaw := 0 } : Wall) ∈
      convertTo3dWalls 1 1 initialWalls :=
  (claim_C9_projector_geometry 1 1 initialWalls).1 0 0 (by decide) (by decide)
    rfl

/-- C10: the projector emits descriptors in a fixed deterministic order (it
is a function of the wall state alone, independent of any random source):
the descriptor list is exactly the row-major-ordered list of present
horizontal wall positions (rows `0..N`, columns `0..N−1`) mapped through
the horizontal formula, followed by the row-major-ordered present vertical
positions (rows `0..N−1`, columns `0..N`) mapped through the vertical
formula, and both position lists are strictly increasing in row-major
order — so for a given wall state (in particular, a given interior wall
set, the boundary entries being fixed) every descriptor, including the
`2N + 2N` boundary ones, occupies a determined position in the sequence. -/
theorem claim_C10_projection_order (N : ℕ) (cs : ℚ) (w : Walls) :
    convertTo3dWalls N cs w =
      (((rowColPairs (List.range (N + 1)) (List.range N)).filter
          fun p => w.hw p.1 p.2).map fun p =>
        createWall cs
          (-((N : ℚ) * cs / 2) + ((p.2 : ℚ) + 1 / 2) * cs)
          (-((N : ℚ) * cs / 2) + (p.1 : ℚ) * cs) 0
          Orientation.horizontal)
      ++ (((rowColPairs (List.range N) (List.range (N + 1))).filter
          fun p => w.vw p.1 p.2).map fun p =>
        createWall cs
          (-((N : ℚ) * cs / 2) + (p.2 : ℚ) * cs)
          (-((N : ℚ) * cs / 2) + ((p.1 : ℚ) + 1 / 2) * cs) 0
          Orientation.vertical) ∧
    ((rowColPairs (List.range (N + 1)) (List.range N)).filter
        fun p => w.hw p.1 p.2).Pairwise rowMajorLT ∧
    ((rowColPairs (List.range N) (List.range (N + 1))).filter
        fun p => w.vw p.1 p.2).Pairwise rowMajorLT :=
  ⟨convertTo3dWalls_eq N cs w,
   (rowColPairs_pairwise _ _ (List.pairwise_lt_range _)
     (List.pairwise_lt_range _)).sublist (List.filter_sublist _),
   (rowColPairs_pairwise _ _ (List.pairwise_lt_range _)
     (List.pairwise_lt_range _)).sublist (List.filter_sublist _)⟩

end MazeGen
